import Mathlib

/-!
Verification of the mamelendez/esp32 notebooks.

Part 1 embeds the quadrature-generator demo of the quadrature-decoder
notebook: the module globals `q_idx`, `q_seq`, the output pins, and the
functions `set_out`, `incr`, `decr`, together with the demo's loop of
12 `incr()`, 24 `decr()`, 12 `incr()` calls.

Python integer `%` with a positive modulus returns a non-negative result,
which is exactly Lean's `Int.emod` (the `%` of `Int`), so `q_idx` is an
`Int` and the translation of `(q_idx+1) % 4` is literal.
-/

namespace Quad

/-- Python list indexing `l[i]`: a negative index counts from the end;
an index out of range is an error (`none`). -/
def pyIndex (l : List Int) (i : Int) : Option Int :=
  let j : Int := if i < 0 then i + l.length else i
  if 0 ≤ j then l[j.toNat]? else none

/-- The module state of the quadrature generator: the global `q_idx` and
the two output pins `qa_out`, `qb_out` (a `Pin` in mode `OUT`, modelled by
its boolean level). -/
structure QState where
  q_idx : Int
  qa : Bool
  qb : Bool
deriving DecidableEq, Repr

/-- `q_seq = [0, 1, 3, 2]`. -/
def q_seq : List Int := [0, 1, 3, 2]

/-- `set_out()`: reads `q_seq[q_idx]`, drives pin A18 with bit 1 and pin
A20 with bit 0 of that entry.  `none` models a Python `IndexError`. -/
def set_out (s : QState) : Option QState :=
  match pyIndex q_seq s.q_idx with
  | some v => some { s with qa := Int.land v 2 != 0, qb := Int.land v 1 != 0 }
  | none => none

/-- `incr()`: `q_idx = (q_idx+1) % 4; set_out()`. -/
def incr (s : QState) : Option QState :=
  set_out { s with q_idx := (s.q_idx + 1) % 4 }

/-- `decr()`: `q_idx = (q_idx-1) % 4; set_out()`. -/
def decr (s : QState) : Option QState :=
  set_out { s with q_idx := (s.q_idx - 1) % 4 }

/-- `n` repetitions of a fallible state transformer (the demo's
`for i in range(n):` loops). -/
def iterOpt (f : QState → Option QState) : Nat → QState → Option QState
  | 0, s => some s
  | n + 1, s => (f s).bind (iterOpt f n)

/-- The module state at the start of the demo: `q_idx = 0` and both
output pins low (`Pin` in mode `OUT` starts driving 0). -/
def initState : QState := ⟨0, false, false⟩

/-- The demo's main sequence: 12 `incr()`, then 24 `decr()`, then
12 `incr()`. -/
def demo : Option QState :=
  ((iterOpt incr 12 initState).bind (iterOpt decr 24)).bind (iterOpt incr 12)

end Quad

/-!
Part 2: the `eventio` kernel.  The repository contains only the tutorial
notebook that *uses* `eventio` (the blinker demos); the scheduler itself is
not under `src/`, so it is modelled from the specification: the Task state
machine of §4.2, the Kernel loop of §4.1, the sleep/timer subsystem of
§4.3, the cancellation/join protocol of §4.4, the Event primitives of
§4.5 and the idle/power policy of §4.6.  Time is the monotonic tick
counter of §4.7 (a `Nat`); results and errors are abstracted to the
terminal status that carries them.
-/

namespace Eventio

/-- Modelled from the spec: a Task's continuation (§3, §9) — the suspended
computation, represented as the explicit sequence of suspension requests it
will yield to the Kernel.  `ret` terminates (→ `Done`), `raiseF` is an
unhandled fault (→ `Failed`), and `pyCall g k` is the tutorial's caveat: a
coroutine call whose result is *not* awaited, so the generator object `g`
is discarded and control falls through to `k`. -/
inductive Code where
  | ret
  | raiseF
  | sleep (d : Nat) (k : Code)
  | wait (e : Nat) (k : Code)
  | spawn (child : Code) (k : Code)
  | join (tgt : Nat) (k : Code)
  | cancel (tgt : Nat) (k : Code)
  | signal (e : Nat) (k : Code)
  | pyCall (g : Code) (k : Code)
deriving DecidableEq, Repr

/-- Modelled from the spec §3/§4.2: the Task state.  `Created` lasts only
for the instant of spawn admission and `Running` only for the atomic
resume inside a kernel-loop iteration, so neither is ever observable
between iterations; the inter-iteration states are the ones below.
`joining tgt` is `WaitingOn` the implicit completion Event of task
`tgt` (§4.4). -/
inductive TStatus where
  | ready
  | sleepingUntil (w : Nat)
  | waitingOn (e : Nat)
  | joining (tgt : Nat)
  | done
  | cancelled
  | failed
deriving DecidableEq, Repr

/-- `Done`, `Cancelled` and `Failed` are the terminal states (§4.2). -/
def TStatus.isTerminal : TStatus → Bool
  | .done | .cancelled | .failed => true
  | _ => false

/-- Modelled from the spec §3: a Task — its continuation, its state, and
the pending-cancellation flag, which is distinct from the state because
cancellation is requested asynchronously but delivered only at a
suspension point. -/
structure Task where
  code : Code
  status : TStatus
  cancelRequested : Bool
deriving DecidableEq, Repr

/-- Scheduling events recorded by the model: a normal resumption of a
task's continuation, or the delivery of the cancellation signal (which in
the tutorial runs the task's `except CancelledError` cleanup). -/
inductive LEvt where
  | resumed
  | cancelDelivered
deriving DecidableEq, Repr

/-- Modelled from the spec §3: the Kernel's process-wide scheduling state:
the task table, the FIFO ready queue, the Timer Queue (ordered by
`wake_time`, ties broken by insertion order), the monotonic clock, the
next fresh task handle, and a log of `(clock, task, event)` scheduling
events (the "Chronometer" view used by the tutorial's printouts). -/
structure KState where
  tasks : List (Nat × Task)
  readyQ : List Nat
  timers : List (Nat × Nat)
  clock : Nat
  nextId : Nat
  log : List (Nat × Nat × LEvt)
deriving DecidableEq, Repr

/-- Pointwise update of the task table; every update of the table goes
through this combinator, which visibly preserves the set of handles. -/
def updTasks (h : Nat → Task → Task) (ts : List (Nat × Task)) :
    List (Nat × Task) :=
  ts.map fun p => (p.1, h p.1 p.2)

/-- Handles of the tasks satisfying a predicate (e.g. the waiter set of an
Event, or the joiner set of a terminating task). -/
def selectIds (f : Task → Bool) (ts : List (Nat × Task)) : List Nat :=
  (ts.filter fun p => f p.2).map (·.1)

/-- Task-table lookup (handle → Task, §3). -/
def getTask (s : KState) (i : Nat) : Option Task :=
  (s.tasks.find? fun p => p.1 == i).map (·.2)

/-- The state of a task, if the handle is live. -/
def statusOf (s : KState) (i : Nat) : Option TStatus :=
  (getTask s i).map (·.status)

/-- Replace the entry of handle `i`. -/
def setTask (s : KState) (i : Nat) (tk : Task) : KState :=
  { s with tasks := updTasks (fun j t => if j == i then tk else t) s.tasks }

/-- Modelled from the spec §3: Timer Queue insertion — ordered by absolute
`wake_time`, a new entry going after all entries with an equal or smaller
wake time (ties broken by insertion order). -/
def insertTimer (w t : Nat) : List (Nat × Nat) → List (Nat × Nat)
  | [] => [(w, t)]
  | (w0, t0) :: rest =>
      if w < w0 then (w, t) :: (w0, t0) :: rest
      else (w0, t0) :: insertTimer w t rest

/-- Modelled from the spec §3/§4.3: removal of a task's TimerEntry prior
to expiry (used by `cancel`). -/
def removeTimer (t : Nat) (ws : List (Nat × Nat)) : List (Nat × Nat) :=
  ws.filter fun p => p.2 != t

/-- Modelled from the spec §4.1 step 4: a task reaching terminal status
`st` signals its implicit completion Event: every joiner becomes `Ready`;
if the target failed or was cancelled, the `join` re-raises that error in
the joiner (§4.4), which we model by replacing the joiner's continuation
with `raiseF`. -/
def wakeJoiners (s : KState) (tgt : Nat) (st : TStatus) : KState :=
  let js := selectIds (fun t => t.status == TStatus.joining tgt) s.tasks
  let reraise := st != TStatus.done
  { s with
    tasks := updTasks (fun _ t =>
      if t.status == TStatus.joining tgt then
        { t with status := TStatus.ready,
                 code := if reraise then Code.raiseF else t.code }
      else t) s.tasks,
    readyQ := s.readyQ ++ js }

/-- The running task yields a request that completes instantly (spawn,
cancel, signal, join of a terminal task): it goes back to `Ready` at the
tail of the FIFO ready queue, with continuation `k`. -/
def requeue (s : KState) (tid : Nat) (k : Code) : KState :=
  match getTask s tid with
  | none => s
  | some tk =>
      let s1 := setTask s tid { tk with status := TStatus.ready, code := k }
      { s1 with readyQ := s1.readyQ ++ [tid] }

/-- Modelled from the spec §4.5: `Event.signal` in broadcast discipline —
move every waiter of Event `e` to `Ready` (FIFO-appended in task-table
order).  This is also the interrupt-context path: it only mutates waiter
bookkeeping and the ready queue, never a continuation. -/
def extSignal (s : KState) (e : Nat) : KState :=
  let ws := selectIds (fun t => t.status == TStatus.waitingOn e) s.tasks
  { s with
    tasks := updTasks (fun _ t =>
      if t.status == TStatus.waitingOn e then { t with status := TStatus.ready }
      else t) s.tasks,
    readyQ := s.readyQ ++ ws }

/-- Modelled from the spec §4.1 steps 2–4: resume task `tid` (just popped
from the head of the ready queue, with continuation `c`) and retire the
one suspension request it yields:
* `ret` / `raiseF`: terminal `Done` / `Failed`; wake the joiners.
* `sleep d k`: compute `wake_time = clock() + d`, insert a TimerEntry,
  state `SleepingUntil wake_time` (§4.3).
* `wait e k`: register as a waiter of Event `e` (§4.5).
* `spawn c k`: admit a fresh child task as `Ready` (Created → Ready);
  the spawner is rescheduled behind it.
* `join tgt k`: if `tgt` is already terminal, return immediately without
  suspending (re-raising if `tgt` failed or was cancelled); otherwise
  suspend on `tgt`'s implicit completion Event (§4.4).  A dead handle is
  `SchedulerMisuse`, fatal to the caller.
* `cancel tgt k`: set the target's cancellation flag; if the target is
  `SleepingUntil` or `WaitingOn` (or joining), force it `Ready` now,
  removing its TimerEntry / waiter-set registration (§4.4); a terminal
  target is unaffected.
* `signal e k`: broadcast Event signal (§4.5).
* `pyCall g k`: a coroutine called without `await`: the generator `g` is
  discarded, no scheduling action happens, control falls through to `k`
  in the same resumption. -/
def runTask (s : KState) (tid : Nat) : Code → KState
  | Code.ret =>
      match getTask s tid with
      | none => s
      | some tk =>
          wakeJoiners
            (setTask s tid { tk with status := TStatus.done, code := Code.ret })
            tid TStatus.done
  | Code.raiseF =>
      match getTask s tid with
      | none => s
      | some tk =>
          wakeJoiners
            (setTask s tid { tk with status := TStatus.failed, code := Code.ret })
            tid TStatus.failed
  | Code.sleep d k =>
      match getTask s tid with
      | none => s
      | some tk =>
          let w := s.clock + d
          let s1 := setTask s tid { tk with status := TStatus.sleepingUntil w, code := k }
          { s1 with timers := insertTimer w tid s1.timers }
  | Code.wait e k =>
      match getTask s tid with
      | none => s
      | some tk => setTask s tid { tk with status := TStatus.waitingOn e, code := k }
  | Code.spawn c k =>
      let s1 := { s with
        tasks := (s.nextId, (⟨c, TStatus.ready, false⟩ : Task)) :: s.tasks,
        readyQ := s.readyQ ++ [s.nextId],
        nextId := s.nextId + 1 }
      requeue s1 tid k
  | Code.join tgt k =>
      match getTask s tgt with
      | none =>
          match getTask s tid with
          | none => s
          | some tk =>
              wakeJoiners
                (setTask s tid { tk with status := TStatus.failed, code := Code.ret })
                tid TStatus.failed
      | some target =>
          if target.status == TStatus.done then requeue s tid k
          else if target.status == TStatus.cancelled
              || target.status == TStatus.failed then
            requeue s tid Code.raiseF
          else
            match getTask s tid with
            | none => s
            | some tk =>
                setTask s tid { tk with status := TStatus.joining tgt, code := k }
  | Code.cancel tgt k =>
      let s1 :=
        match getTask s tgt with
        | none => s
        | some target =>
            if target.status.isTerminal then s
            else
              match target.status with
              | TStatus.sleepingUntil _ =>
                  let s' := setTask s tgt
                    { target with status := TStatus.ready, cancelRequested := true }
                  { s' with timers := removeTimer tgt s'.timers,
                            readyQ := s'.readyQ ++ [tgt] }
              | TStatus.waitingOn _ =>
                  let s' := setTask s tgt
                    { target with status := TStatus.ready, cancelRequested := true }
                  { s' with readyQ := s'.readyQ ++ [tgt] }
              | TStatus.joining _ =>
                  let s' := setTask s tgt
                    { target with status := TStatus.ready, cancelRequested := true }
                  { s' with readyQ := s'.readyQ ++ [tgt] }
              | _ => setTask s tgt { target with cancelRequested := true }
      requeue s1 tid k
  | Code.signal e k => requeue (extSignal s e) tid k
  | Code.pyCall _ k => runTask s tid k

/-- Modelled from the spec §4.1/§4.6: one iteration of the kernel loop.
If the ready queue is non-empty, pop its head; a pending cancellation is
delivered right there — at the task's suspension point — turning it
`Cancelled` (its cleanup runs, recorded in the log) and waking joiners;
otherwise the task's continuation is resumed.  If the ready queue is
empty, the Idle Policy parks until the Timer Queue's minimum wake time
(indefinitely if no timers are pending: only an external `extSignal` can
then wake the system), after which every expired TimerEntry is retired
and its task made `Ready`, in Timer Queue order. -/
def step (s : KState) : KState :=
  match s.readyQ with
  | tid :: rest =>
      let s1 := { s with readyQ := rest }
      match getTask s1 tid with
      | none => s1
      | some tk =>
          if tk.cancelRequested then
            let s2 := { s1 with
              log := s1.log ++ [(s1.clock, tid, LEvt.cancelDelivered)] }
            wakeJoiners
              (setTask s2 tid { tk with status := TStatus.cancelled, code := Code.ret })
              tid TStatus.cancelled
          else
            let s2 := { s1 with log := s1.log ++ [(s1.clock, tid, LEvt.resumed)] }
            runTask s2 tid tk.code
  | [] =>
      match s.timers with
      | [] => s
      | (w0, _) :: _ =>
          let c := max s.clock w0
          let expired := (s.timers.filter fun p => decide (p.1 ≤ c)).map (·.2)
          { s with
            clock := c,
            timers := s.timers.filter fun p => decide (¬ p.1 ≤ c),
            tasks := updTasks (fun j t =>
              if expired.contains j then { t with status := TStatus.ready } else t)
              s.tasks,
            readyQ := s.readyQ ++ expired }

/-- `n` iterations of the kernel loop. -/
def stepN : Nat → KState → KState
  | 0, s => s
  | n + 1, s => stepN n (step s)

/-- Modelled from the spec §4.1: `run(entry)` constructs a fresh Kernel
whose only task is the root, admitted `Ready`. -/
def initK (root : Code) : KState :=
  ⟨[(0, ⟨root, TStatus.ready, false⟩)], [0], [], 0, 1, []⟩

/-- What the Idle Policy decides to do with the CPU (§4.6). -/
inductive IdleAction where
  | park (wake : Option Nat)
  | spin
deriving DecidableEq, Repr

/-- The minimum wake time of the Timer Queue: its head, since the queue
is ordered by wake time. -/
def minWake : List (Nat × Nat) → Option Nat
  | [] => none
  | (w, _) :: _ => some w

/-- Modelled from the spec §4.6: the Idle Policy, invoked when the ready
queue is empty.  With a low-power park path it parks — until the Timer
Queue's minimum wake time, or indefinitely if only external-event waits
are outstanding; without one it degrades to busy-waiting.  The choice is
a configuration parameter, not hardcoded. -/
def idlePolicy (lowPower : Bool) (timers : List (Nat × Nat)) : IdleAction :=
  if lowPower then IdleAction.park (minWake timers) else IdleAction.spin

/-- Modelled from the spec §4.6: the instant a parked CPU actually wakes:
the scheduled wake time, cut short by an external signal arriving at
`sig` if that comes first. -/
def wakeInstant (wake : Option Nat) (sig : Option Nat) : Option Nat :=
  match wake, sig with
  | none, none => none
  | none, some ts => some ts
  | some w, none => some w
  | some w, some ts => some (min w ts)

/-- The flag of a task, if the handle is live. -/
def flagOf (s : KState) (i : Nat) : Option Bool :=
  (getTask s i).map (·.cancelRequested)

/-- The Kernel's structural invariant, the spec §3 ownership discipline: a
non-terminal suspended task is in exactly the queue its state names —
ready-queue members are `Ready`, TimerEntries point at tasks sleeping
until exactly that wake time, no queue holds duplicates, handles are
unique and below the allocation counter, and the Timer Queue is ordered
by wake time. -/
structure Inv (s : KState) : Prop where
  readyStatus : ∀ i ∈ s.readyQ, statusOf s i = some TStatus.ready
  timerStatus : ∀ p ∈ s.timers, statusOf s p.2 = some (TStatus.sleepingUntil p.1)
  readyNodup : s.readyQ.Nodup
  timerNodup : (s.timers.map (·.2)).Nodup
  keysNodup : (s.tasks.map (·.1)).Nodup
  keysLt : ∀ p ∈ s.tasks, p.1 < s.nextId
  timerSorted : s.timers.Pairwise fun p q => p.1 ≤ q.1

/-- The state in which the Kernel runs a freshly popped task: the full
invariant, and `tid` live, `Ready`, and in no queue. -/
structure RunInv (s : KState) (tid : Nat) extends Inv s : Prop where
  tidStatus : statusOf s tid = some TStatus.ready
  tidNotQueued : tid ∉ s.readyQ

/-- C1's inductive guard for a task `t` with pending wake time `w`:
either `t` still sleeps until `w`, or its cancellation flag is set (so
its next scheduling event is a cancellation delivery, not a resumption),
or the clock has already reached `w`. -/
def sleepGuard (s : KState) (t w : Nat) : Prop :=
  statusOf s t = some (TStatus.sleepingUntil w)
    ∨ flagOf s t = some true
    ∨ w ≤ s.clock

/-- Concrete state for the C2 witness: task 0 is about to run
`cancel(1)`, task 1 sleeps until tick 9 with a TimerEntry `(9, 1)`. -/
def cancelDemoState : KState :=
  ⟨[(0, ⟨Code.cancel 1 Code.ret, TStatus.ready, false⟩),
    (1, ⟨Code.ret, TStatus.sleepingUntil 9, false⟩)],
   [0], [(9, 1)], 0, 2, []⟩

/-- Concrete state for the C3 witness: task 0 is about to run
`join(1)` and task 1 is already `Done`. -/
def joinDemoState : KState :=
  ⟨[(0, ⟨Code.join 1 Code.ret, TStatus.ready, false⟩),
    (1, ⟨Code.ret, TStatus.done, false⟩)],
   [0], [], 0, 2, []⟩

/-- Concrete state for the C4 witness: task 0 sits at a suspension point
(head of the ready queue) with its cancellation flag pending. -/
def deliveryDemoState : KState :=
  ⟨[(0, ⟨Code.ret, TStatus.ready, true⟩)], [0], [], 0, 1, []⟩

/-- The first blinker of the tutorial's cancel demo (period 0.3 s, scaled
to 3 ticks), unrolled to the three periods the scenario can reach. -/
def b1 : Code := Code.sleep 3 (Code.sleep 3 (Code.sleep 3 Code.ret))

/-- The second blinker (period 0.7 s, scaled to 7 ticks). -/
def b2 : Code := Code.sleep 7 (Code.sleep 7 (Code.sleep 7 Code.ret))

/-- The third blinker (period 0.5 s, scaled to 5 ticks). -/
def b3 : Code := Code.sleep 5 (Code.sleep 5 (Code.sleep 5 Code.ret))

/-- The tutorial's `main`: spawn the three blinkers (handles 1, 2, 3),
wait for the external PinEvent (Event 0), then cancel all three and
return. -/
def mainC : Code :=
  Code.spawn b1 (Code.spawn b2 (Code.spawn b3
    (Code.wait 0 (Code.cancel 1 (Code.cancel 2 (Code.cancel 3 Code.ret))))))

/-- The cancel-demo scenario, started by `run(main)`. -/
def scen0 : KState := initK mainC

/-- The scenario after 11 kernel iterations — all three blinkers asleep,
`main` waiting on Event 0 — at the instant the external signal fires
(the interrupt-context `Event.signal`). -/
def scenMid : KState := extSignal (stepN 11 scen0) 0

/-- The scenario run to quiescence: `main` has cancelled all three
blinkers and returned. -/
def scenFin : KState := stepN 7 scenMid

/-- Concrete state for the C5 witness: a single already-`Done` task. -/
def doneDemoState : KState :=
  ⟨[(0, ⟨Code.ret, TStatus.done, false⟩)], [], [], 0, 1, []⟩

/-- The timer-tie scenario refuting C6's spawn-order tie-break: the root
spawns child 1 (`sleep 2; sleep 8`) and then child 2
(`sleep 1; sleep 9`), so both children's second timers expire at tick
10, but child 2's TimerEntry is inserted first. -/
def cexInit : KState :=
  initK (Code.spawn (Code.sleep 2 (Code.sleep 8 Code.ret))
    (Code.spawn (Code.sleep 1 (Code.sleep 9 Code.ret)) Code.ret))

/-- Concrete state for the C6 witness: task 0 at the head of the ready
queue with a clear flag. -/
def fifoDemoState : KState :=
  ⟨[(0, ⟨Code.ret, TStatus.ready, false⟩)], [0], [], 0, 1, []⟩

/-- Concrete state for the C7 witness: an empty ready queue and one task
asleep until tick 9. -/
def idleDemoState : KState :=
  ⟨[(1, ⟨Code.ret, TStatus.sleepingUntil 9, false⟩)], [], [(9, 1)], 0, 2, []⟩

/-- The missing-`await` caveat of the tutorial: a task whose body calls
`eventio.sleep(d)` without `await` (discarding the returned generator)
and then falls through to its end. -/
def noAwaitState (d : Nat) : KState :=
  initK (Code.pyCall (Code.sleep d Code.ret) Code.ret)

end Eventio

namespace Quad

/-- C8: `decr()` is the exact inverse of `incr()` on `q_idx`: for every
`q_idx ∈ {0,1,2,3}` (and any pin levels), `incr` followed by `decr` (and
`decr` followed by `incr`) restores `q_idx`; and the demo's sequence of
12 `incr()`, 24 `decr()`, 12 `incr()` returns the whole module state —
`q_idx` and the generated pin output pattern — to its initial value. -/
theorem incr_decr_inverse (q : Int) (h : q = 0 ∨ q = 1 ∨ q = 2 ∨ q = 3)
    (qa qb : Bool) :
    (((incr ⟨q, qa, qb⟩).bind decr).map QState.q_idx = some q
      ∧ ((decr ⟨q, qa, qb⟩).bind incr).map QState.q_idx = some q)
    ∧ demo = some initState := by
  rcases h with rfl | rfl | rfl | rfl <;> revert qa qb <;> decide

/-- Witness for C8 at `q_idx = 0`, both pins low. -/
theorem incr_decr_inverse_witness :
    (((incr ⟨0, false, false⟩).bind decr).map QState.q_idx = some 0
      ∧ ((decr ⟨0, false, false⟩).bind incr).map QState.q_idx = some 0)
    ∧ demo = some initState :=
  incr_decr_inverse 0 (Or.inl rfl) false false

/-- `set_out` succeeds on every state whose `q_idx` is in `{0,1,2,3}`,
and it never changes `q_idx`. -/
theorem set_out_some (a b : Bool) (c : Int)
    (h : c = 0 ∨ c = 1 ∨ c = 2 ∨ c = 3) :
    ∃ t, set_out ⟨c, a, b⟩ = some t ∧ t.q_idx = c := by
  rcases h with rfl | rfl | rfl | rfl
  · exact ⟨⟨0, false, false⟩, rfl, rfl⟩
  · exact ⟨⟨1, false, true⟩, rfl, rfl⟩
  · exact ⟨⟨2, true, true⟩, rfl, rfl⟩
  · exact ⟨⟨3, true, false⟩, rfl, rfl⟩

/-- C9: from any integer `q_idx` whatsoever, a call to `incr()` or
`decr()` succeeds (no `IndexError` in `set_out`, i.e. `q_seq[q_idx]` is
within the bounds of the 4-element list) and leaves `q_idx` in
`{0,1,2,3}` — Python's `%` returns a non-negative result, so
`(q_idx-1) % 4` is `3` when `q_idx` is `0`. -/
theorem q_idx_in_range (s : QState) :
    ∃ s₁ s₂, incr s = some s₁ ∧ decr s = some s₂
      ∧ (s₁.q_idx = 0 ∨ s₁.q_idx = 1 ∨ s₁.q_idx = 2 ∨ s₁.q_idx = 3)
      ∧ (s₂.q_idx = 0 ∨ s₂.q_idx = 1 ∨ s₂.q_idx = 2 ∨ s₂.q_idx = 3) := by
  have h1 : (s.q_idx + 1) % 4 = 0 ∨ (s.q_idx + 1) % 4 = 1
      ∨ (s.q_idx + 1) % 4 = 2 ∨ (s.q_idx + 1) % 4 = 3 := by omega
  have h2 : (s.q_idx - 1) % 4 = 0 ∨ (s.q_idx - 1) % 4 = 1
      ∨ (s.q_idx - 1) % 4 = 2 ∨ (s.q_idx - 1) % 4 = 3 := by omega
  obtain ⟨t1, ht1, hq1⟩ := set_out_some s.qa s.qb _ h1
  obtain ⟨t2, ht2, hq2⟩ := set_out_some s.qa s.qb _ h2
  rw [← hq1] at h1
  rw [← hq2] at h2
  exact ⟨t1, t2, ht1, ht2, h1, h2⟩

end Quad

namespace Eventio

theorem updTasks_keys (h : Nat → Task → Task) (ts : List (Nat × Task)) :
    (updTasks h ts).map (·.1) = ts.map (·.1) := by
  induction ts with
  | nil => rfl
  | cons p ts ih =>
      simp only [updTasks, List.map_cons] at ih ⊢
      rw [ih]

theorem find?_updTasks (h : Nat → Task → Task) (ts : List (Nat × Task)) (i : Nat) :
    ((updTasks h ts).find? fun p => p.1 == i).map (·.2)
      = ((ts.find? fun p => p.1 == i).map (·.2)).map (h i) := by
  induction ts with
  | nil => rfl
  | cons p ts ih =>
      by_cases hb : p.1 = i
      · subst hb; simp [updTasks, List.find?]
      · have hb' : (p.1 == i) = false := by simp [hb]
        simp only [updTasks, List.map_cons, List.find?, hb'] at ih ⊢
        exact ih

theorem mem_of_getTask {s : KState} {i : Nat} {tk : Task}
    (h : getTask s i = some tk) : (i, tk) ∈ s.tasks := by
  unfold getTask at h
  cases hf : s.tasks.find? fun p => p.1 == i with
  | none => rw [hf] at h; simp at h
  | some p =>
      rw [hf] at h
      have hm := List.find?_some hf
      have hmem := List.mem_of_find?_eq_some hf
      obtain ⟨p1, p2⟩ := p
      simp at hm h
      subst hm; subst h; exact hmem

theorem getTask_eq_of_tasks {s s' : KState} (h : s'.tasks = s.tasks) (i : Nat) :
    getTask s' i = getTask s i := by
  unfold getTask; rw [h]

/-- Task lookup after a pointwise table update. -/
theorem getTask_updTasks {s s' : KState} (h : Nat → Task → Task)
    (hts : s'.tasks = updTasks h s.tasks) (i : Nat) :
    getTask s' i = (getTask s i).map (h i) := by
  unfold getTask
  rw [hts, find?_updTasks, Option.map_map]

theorem getTask_setTask_same {s : KState} {i : Nat} (tk : Task) :
    getTask (setTask s i tk) i = (getTask s i).map (fun _ => tk) := by
  have := @getTask_updTasks s (setTask s i tk)
    (fun j t => if j == i then tk else t) rfl i
  simpa using this

theorem getTask_setTask_other {s : KState} {i j : Nat} (tk : Task)
    (hne : j ≠ i) : getTask (setTask s i tk) j = getTask s j := by
  have := @getTask_updTasks s (setTask s i tk)
    (fun j t => if j == i then tk else t) rfl j
  have hb : (j == i) = false := by simp [hne]
  simp only [hb, if_false] at this
  simpa using this

theorem selectIds_subset_keys (f : Task → Bool) (ts : List (Nat × Task)) :
    ∀ i ∈ selectIds f ts, i ∈ ts.map (·.1) := by
  intro i hi
  obtain ⟨p, hp, rfl⟩ := List.mem_map.mp hi
  exact List.mem_map.mpr ⟨p, List.mem_of_mem_filter hp, rfl⟩

theorem selectIds_nodup {f : Task → Bool} {ts : List (Nat × Task)}
    (h : (ts.map (·.1)).Nodup) : (selectIds f ts).Nodup := by
  have hsub : ((ts.filter fun p => f p.2).map (·.1)).Sublist (ts.map (·.1)) :=
    List.Sublist.map _ (List.filter_sublist ts)
  exact h.sublist hsub

theorem selectIds_cons (f : Task → Bool) (p : Nat × Task) (ts : List (Nat × Task)) :
    selectIds f (p :: ts)
      = if f p.2 then p.1 :: selectIds f ts else selectIds f ts := by
  by_cases h : f p.2 <;> simp [selectIds, List.filter_cons, h]

theorem mem_selectIds {f : Task → Bool} {ts : List (Nat × Task)} {i : Nat}
    (hnd : (ts.map (·.1)).Nodup) :
    i ∈ selectIds f ts
      ↔ ∃ tk, ((ts.find? fun p => p.1 == i).map (·.2)) = some tk ∧ f tk = true := by
  induction ts with
  | nil => simp [selectIds]
  | cons p ts ih =>
      rw [List.map_cons, List.nodup_cons] at hnd
      obtain ⟨hp, hnd'⟩ := hnd
      rw [selectIds_cons]
      by_cases hb : p.1 = i
      · subst hb
        rw [List.find?_cons_of_pos _ (by simp)]
        by_cases hf : f p.2
        · simp [hf]
        · rw [if_neg hf]
          constructor
          · intro hmem
            exact absurd (selectIds_subset_keys f ts _ hmem) hp
          · rintro ⟨tk, htk, hftk⟩
            simp only [Option.map_some', Option.some.injEq] at htk
            subst htk
            exact absurd hftk (by simpa using hf)
      · rw [List.find?_cons_of_neg _ (by simp [hb])]
        by_cases hf : f p.2
        · rw [if_pos hf, List.mem_cons, ih hnd']
          constructor
          · rintro (rfl | h)
            · exact absurd rfl hb
            · exact h
          · intro h; exact Or.inr h
        · rw [if_neg hf]; exact ih hnd'

theorem insertTimer_perm (w t : Nat) (l : List (Nat × Nat)) :
    (insertTimer w t l).Perm ((w, t) :: l) := by
  induction l with
  | nil => simp [insertTimer]
  | cons q l ih =>
      obtain ⟨w0, t0⟩ := q
      by_cases hlt : w < w0
      · simp [insertTimer, hlt]
      · simp only [insertTimer, if_neg hlt]
        exact ((ih.cons (w0, t0)).trans (List.Perm.swap _ _ _))

theorem insertTimer_sorted {w t : Nat} {l : List (Nat × Nat)}
    (h : l.Pairwise fun p q => p.1 ≤ q.1) :
    (insertTimer w t l).Pairwise fun p q => p.1 ≤ q.1 := by
  induction l with
  | nil => simp [insertTimer]
  | cons q l ih =>
      obtain ⟨w0, t0⟩ := q
      rw [List.pairwise_cons] at h
      obtain ⟨hq, hl⟩ := h
      by_cases hlt : w < w0
      · rw [insertTimer, if_pos hlt, List.pairwise_cons]
        refine ⟨?_, List.pairwise_cons.mpr ⟨hq, hl⟩⟩
        intro p hp
        rw [List.mem_cons] at hp
        rcases hp with rfl | hp
        · exact Nat.le_of_lt hlt
        · exact Nat.le_trans (Nat.le_of_lt hlt) (hq _ hp)
      · rw [insertTimer, if_neg hlt, List.pairwise_cons]
        refine ⟨?_, ih hl⟩
        intro p hp
        have hp' := (insertTimer_perm w t l).mem_iff.mp hp
        rw [List.mem_cons] at hp'
        rcases hp' with rfl | hp'
        · exact Nat.le_of_not_lt hlt
        · exact hq _ hp'

/-- `insertTimer` places the new entry after every existing entry with an
equal or smaller wake time and before the first strictly later one: the
Timer Queue breaks wake-time ties by insertion order. -/
theorem insertTimer_split (w t : Nat) (l : List (Nat × Nat)) :
    ∃ l₁ l₂, l = l₁ ++ l₂ ∧ insertTimer w t l = l₁ ++ (w, t) :: l₂
      ∧ (∀ p ∈ l₁, p.1 ≤ w)
      ∧ (l₂ = [] ∨ ∃ q l₂', l₂ = q :: l₂' ∧ w < q.1) := by
  induction l with
  | nil => exact ⟨[], [], rfl, rfl, by simp, Or.inl rfl⟩
  | cons q l ih =>
      obtain ⟨w0, t0⟩ := q
      by_cases hlt : w < w0
      · exact ⟨[], (w0, t0) :: l, rfl, by simp [insertTimer, hlt],
          by simp, Or.inr ⟨(w0, t0), l, rfl, hlt⟩⟩
      · obtain ⟨l₁, l₂, hsplit, hins, hle, htail⟩ := ih
        refine ⟨(w0, t0) :: l₁, l₂, by simp [hsplit], ?_, ?_, htail⟩
        · simp [insertTimer, hlt, hins]
        · intro p hp
          rw [List.mem_cons] at hp
          rcases hp with rfl | hp
          · exact Nat.le_of_not_lt hlt
          · exact hle _ hp

theorem getTask_lt_nextId {s : KState} {i : Nat} {tk : Task}
    (hInv : Inv s) (h : getTask s i = some tk) : i < s.nextId :=
  hInv.keysLt _ (mem_of_getTask h)

theorem statusOf_lt_nextId {s : KState} {i : Nat} {st : TStatus}
    (hInv : Inv s) (h : statusOf s i = some st) : i < s.nextId := by
  unfold statusOf at h
  cases hg : getTask s i with
  | none => rw [hg] at h; simp at h
  | some tk => exact getTask_lt_nextId hInv hg

theorem timer_ne_of_ready {s : KState} {i : Nat}
    (hInv : Inv s) (hready : statusOf s i = some TStatus.ready) :
    ∀ p ∈ s.timers, p.2 ≠ i := by
  intro p hp he
  subst he
  rw [hInv.timerStatus p hp] at hready
  simp at hready

theorem mem_updTasks {h : Nat → Task → Task} {ts : List (Nat × Task)}
    {p' : Nat × Task} (hm : p' ∈ updTasks h ts) :
    ∃ p ∈ ts, p' = (p.1, h p.1 p.2) := by
  obtain ⟨p, hp, rfl⟩ := List.mem_map.mp hm
  exact ⟨p, hp, rfl⟩

theorem getTask_cons {s s' : KState} {n : Nat} {c : Task}
    (h : s'.tasks = (n, c) :: s.tasks) (j : Nat) :
    getTask s' j = if j = n then some c else getTask s j := by
  unfold getTask
  rw [h]
  by_cases hb : j = n
  · subst hb; simp [List.find?]
  · have hb' : (n == j) = false := by simp [Ne.symm hb]
    simp [List.find?, hb', hb]

/-- Waking a selection of suspended tasks (an Event's waiter set, a dead
task's joiner set) preserves the invariant, provided the selected tasks
are neither `Ready` nor sleeping (so they are in no queue) and the wake
function makes them `Ready`. -/
theorem wake_bulk_inv {s s' : KState} {f : Task → Bool} {g : Task → Task}
    (hInv : Inv s)
    (hg : ∀ t, (g t).status = TStatus.ready)
    (hfr : ∀ t, f t = true → t.status ≠ TStatus.ready)
    (hfs : ∀ t w, f t = true → t.status ≠ TStatus.sleepingUntil w)
    (hts : s'.tasks = updTasks (fun _ t => if f t then g t else t) s.tasks)
    (hrq : s'.readyQ = s.readyQ ++ selectIds f s.tasks)
    (htm : s'.timers = s.timers)
    (hni : s'.nextId = s.nextId) :
    Inv s' := by
  have hget : ∀ j, getTask s' j
      = (getTask s j).map (fun t => if f t then g t else t) :=
    getTask_updTasks _ hts
  have hsel : ∀ i ∈ selectIds f s.tasks,
      ∃ tk, getTask s i = some tk ∧ f tk = true := by
    intro i hi
    exact (mem_selectIds hInv.keysNodup).mp hi
  refine ⟨?_, ?_, ?_, ?_, ?_, ?_, ?_⟩
  · intro i hi
    rw [hrq, List.mem_append] at hi
    rcases hi with hi | hi
    · have hst := hInv.readyStatus i hi
      unfold statusOf at hst ⊢
      rw [hget]
      cases hg' : getTask s i with
      | none => rw [hg'] at hst; simp at hst
      | some tk =>
          rw [hg'] at hst
          simp only [Option.map_some', Option.some.injEq] at hst
          have hf : f tk = false := by
            cases hf : f tk
            · rfl
            · exact absurd hst (hfr tk hf)
          simp [hf, hst]
    · obtain ⟨tk, htk, hf⟩ := hsel i hi
      unfold statusOf
      rw [hget, htk]
      simp [hf, hg tk]
  · intro p hp
    rw [htm] at hp
    have hst := hInv.timerStatus p hp
    unfold statusOf at hst ⊢
    rw [hget]
    cases hg' : getTask s p.2 with
    | none => rw [hg'] at hst; simp at hst
    | some tk =>
        rw [hg'] at hst
        simp only [Option.map_some', Option.some.injEq] at hst
        have hf : f tk = false := by
          cases hf : f tk
          · rfl
          · exact absurd hst (hfs tk p.1 hf)
        simp [hf, hst]
  · rw [hrq]
    rw [List.nodup_append]
    refine ⟨hInv.readyNodup, selectIds_nodup hInv.keysNodup, ?_⟩
    intro i hi hi'
    obtain ⟨tk, htk, hf⟩ := hsel i hi'
    have hst := hInv.readyStatus i hi
    unfold statusOf at hst
    rw [htk] at hst
    simp only [Option.map_some', Option.some.injEq] at hst
    exact hfr tk hf hst
  · rw [htm]; exact hInv.timerNodup
  · rw [hts, updTasks_keys]; exact hInv.keysNodup
  · intro p hp
    rw [hts] at hp
    obtain ⟨q, hq, rfl⟩ := mem_updTasks hp
    rw [hni]
    exact hInv.keysLt q hq
  · rw [htm]; exact hInv.timerSorted

theorem statusOf_eq_of_tasks {s s' : KState} (h : s'.tasks = s.tasks) (i : Nat) :
    statusOf s' i = statusOf s i := by
  unfold statusOf; rw [getTask_eq_of_tasks h]

theorem statusOf_setTask_other {s : KState} {i j : Nat} (tk : Task)
    (h : j ≠ i) : statusOf (setTask s i tk) j = statusOf s j := by
  unfold statusOf; rw [getTask_setTask_other _ h]

theorem statusOf_setTask_same {s : KState} {i : Nat} {tk tk₀ : Task}
    (h : getTask s i = some tk₀) :
    statusOf (setTask s i tk) i = some tk.status := by
  unfold statusOf; rw [getTask_setTask_same, h]; rfl

theorem wakeJoiners_inv {s : KState} (hInv : Inv s) (tgt : Nat) (st : TStatus) :
    Inv (wakeJoiners s tgt st) := by
  refine wake_bulk_inv (f := fun t => t.status == TStatus.joining tgt)
    (g := fun t =>
      { t with
        status := TStatus.ready
        code := if (st != TStatus.done) then Code.raiseF else t.code })
    hInv (fun t => rfl) ?_ ?_ rfl rfl rfl rfl
  · intro t h
    rw [beq_iff_eq] at h
    rw [h]; simp
  · intro t w h
    rw [beq_iff_eq] at h
    rw [h]; simp

theorem extSignal_inv {s : KState} (hInv : Inv s) (e : Nat) :
    Inv (extSignal s e) := by
  refine wake_bulk_inv (f := fun t => t.status == TStatus.waitingOn e)
    (g := fun t => { t with status := TStatus.ready })
    hInv (fun t => rfl) ?_ ?_ rfl rfl rfl rfl
  · intro t h
    rw [beq_iff_eq] at h
    rw [h]; simp
  · intro t w h
    rw [beq_iff_eq] at h
    rw [h]; simp

/-- Lookup through a single-task update given as a table equation. -/
theorem getTask_set_via {s s' : KState} {tid : Nat} {tk : Task}
    (hts : s'.tasks = updTasks (fun j t => if j == tid then tk else t) s.tasks) :
    (∀ j, j ≠ tid → getTask s' j = getTask s j)
      ∧ getTask s' tid = (getTask s tid).map (fun _ => tk) := by
  have hget := getTask_updTasks _ hts
  constructor
  · intro j hj
    have hb : (j == tid) = false := by simp [hj]
    rw [hget j]
    cases getTask s j <;> simp [hb]
  · rw [hget tid]
    cases getTask s tid <;> simp

/-- Invariant preservation for every kernel action that rewrites exactly
one task `tid` (already in no queue) and possibly re-admits it: the new
ready queue is unchanged or gains `tid` at the tail (then the new status
is `Ready`), and the Timer Queue is unchanged, gains `tid`'s new
TimerEntry (then the new status is `SleepingUntil` of that wake time), or
loses `tid`'s entries. -/
theorem set_one_inv {s s' : KState} {tid : Nat} {tk₀ : Task} (tk : Task)
    (hInv : Inv s)
    (h0 : getTask s tid = some tk₀)
    (hnq : tid ∉ s.readyQ)
    (hts : s'.tasks = updTasks (fun j t => if j == tid then tk else t) s.tasks)
    (hni : s'.nextId = s.nextId)
    (hrq : s'.readyQ = s.readyQ
      ∨ (s'.readyQ = s.readyQ ++ [tid] ∧ tk.status = TStatus.ready))
    (htm : (s'.timers = s.timers ∧ ∀ p ∈ s.timers, p.2 ≠ tid)
      ∨ (∃ w, s'.timers = insertTimer w tid s.timers
          ∧ tk.status = TStatus.sleepingUntil w ∧ ∀ p ∈ s.timers, p.2 ≠ tid)
      ∨ s'.timers = removeTimer tid s.timers) :
    Inv s' := by
  obtain ⟨hother, hsame⟩ := getTask_set_via hts
  have hstat_other : ∀ j, j ≠ tid → statusOf s' j = statusOf s j := by
    intro j hj; unfold statusOf; rw [hother j hj]
  have hstat_same : statusOf s' tid = some tk.status := by
    unfold statusOf; rw [hsame, h0]; rfl
  refine ⟨?_, ?_, ?_, ?_, ?_, ?_, ?_⟩
  · intro i hi
    rcases hrq with hq | ⟨hq, hr⟩
    · rw [hq] at hi
      have hne : i ≠ tid := fun h => hnq (h ▸ hi)
      rw [hstat_other i hne]
      exact hInv.readyStatus i hi
    · rw [hq, List.mem_append, List.mem_singleton] at hi
      rcases hi with hi | rfl
      · have hne : i ≠ tid := fun h => hnq (h ▸ hi)
        rw [hstat_other i hne]
        exact hInv.readyStatus i hi
      · rw [hstat_same, hr]
  · intro p hp
    rcases htm with ⟨ht, hnt⟩ | ⟨w, ht, hw, hnt⟩ | ht
    · rw [ht] at hp
      rw [hstat_other p.2 (hnt p hp)]
      exact hInv.timerStatus p hp
    · rw [ht] at hp
      have hp' := (insertTimer_perm w tid s.timers).mem_iff.mp hp
      rw [List.mem_cons] at hp'
      rcases hp' with rfl | hp'
      · rw [hstat_same, hw]
      · rw [hstat_other p.2 (hnt p hp')]
        exact hInv.timerStatus p hp'
    · rw [ht] at hp
      have hpm : p ∈ s.timers := List.mem_of_mem_filter hp
      have hpne : p.2 ≠ tid := by
        have := List.of_mem_filter hp
        simpa using this
      rw [hstat_other p.2 hpne]
      exact hInv.timerStatus p hpm
  · rcases hrq with hq | ⟨hq, _⟩
    · rw [hq]; exact hInv.readyNodup
    · rw [hq, List.nodup_append]
      exact ⟨hInv.readyNodup, List.nodup_singleton tid, by
        intro a ha hb
        rw [List.mem_singleton] at hb
        exact hnq (hb ▸ ha)⟩
  · rcases htm with ⟨ht, hnt⟩ | ⟨w, ht, hw, hnt⟩ | ht
    · rw [ht]; exact hInv.timerNodup
    · rw [ht]
      have hperm := (insertTimer_perm w tid s.timers).map (·.2)
      rw [hperm.nodup_iff, List.map_cons, List.nodup_cons]
      refine ⟨?_, hInv.timerNodup⟩
      intro hmem
      obtain ⟨p, hp, hp2⟩ := List.mem_map.mp hmem
      exact hnt p hp hp2
    · rw [ht]
      exact hInv.timerNodup.sublist (List.Sublist.map _ (List.filter_sublist _))
  · rw [hts, updTasks_keys]; exact hInv.keysNodup
  · intro p hp
    rw [hts] at hp
    obtain ⟨q, hq, rfl⟩ := mem_updTasks hp
    rw [hni]
    exact hInv.keysLt q hq
  · rcases htm with ⟨ht, _⟩ | ⟨w, ht, _, _⟩ | ht
    · rw [ht]; exact hInv.timerSorted
    · rw [ht]; exact insertTimer_sorted hInv.timerSorted
    · rw [ht]; exact hInv.timerSorted.sublist (List.filter_sublist _)

/-- Invariant preservation for a flag-only update (the task's status is
unchanged, so every queue stays consistent). -/
theorem set_flag_inv {s s' : KState} {tid : Nat} {tk₀ : Task} (tk : Task)
    (hInv : Inv s)
    (h0 : getTask s tid = some tk₀)
    (hst : tk.status = tk₀.status)
    (hts : s'.tasks = updTasks (fun j t => if j == tid then tk else t) s.tasks)
    (hrq : s'.readyQ = s.readyQ)
    (htm : s'.timers = s.timers)
    (hni : s'.nextId = s.nextId) :
    Inv s' := by
  obtain ⟨hother, hsame⟩ := getTask_set_via hts
  have hstat : ∀ j, statusOf s' j = statusOf s j := by
    intro j
    by_cases hj : j = tid
    · subst hj
      unfold statusOf
      rw [hsame, h0]
      simp [hst]
    · unfold statusOf; rw [hother j hj]
  refine ⟨?_, ?_, ?_, ?_, ?_, ?_, ?_⟩
  · intro i hi
    rw [hrq] at hi
    rw [hstat]
    exact hInv.readyStatus i hi
  · intro p hp
    rw [htm] at hp
    rw [hstat]
    exact hInv.timerStatus p hp
  · rw [hrq]; exact hInv.readyNodup
  · rw [htm]; exact hInv.timerNodup
  · rw [hts, updTasks_keys]; exact hInv.keysNodup
  · intro p hp
    rw [hts] at hp
    obtain ⟨q, hq, rfl⟩ := mem_updTasks hp
    rw [hni]
    exact hInv.keysLt q hq
  · rw [htm]; exact hInv.timerSorted

/-- Invariant preservation for spawn admission: a fresh task, `Ready`,
appended to the ready queue. -/
theorem spawn_adm_inv {s s' : KState} (c : Code) (hInv : Inv s)
    (hts : s'.tasks = (s.nextId, (⟨c, TStatus.ready, false⟩ : Task)) :: s.tasks)
    (hrq : s'.readyQ = s.readyQ ++ [s.nextId])
    (htm : s'.timers = s.timers)
    (hni : s'.nextId = s.nextId + 1) :
    Inv s' := by
  have hget := getTask_cons hts
  have hstat : ∀ j, j ≠ s.nextId → statusOf s' j = statusOf s j := by
    intro j hj
    unfold statusOf
    rw [hget j, if_neg hj]
  refine ⟨?_, ?_, ?_, ?_, ?_, ?_, ?_⟩
  · intro i hi
    rw [hrq, List.mem_append, List.mem_singleton] at hi
    rcases hi with hi | rfl
    · have hlt := statusOf_lt_nextId hInv (hInv.readyStatus i hi)
      rw [hstat i (Nat.ne_of_lt hlt)]
      exact hInv.readyStatus i hi
    · unfold statusOf
      rw [hget _, if_pos rfl]
      rfl
  · intro p hp
    rw [htm] at hp
    have hlt := statusOf_lt_nextId hInv (hInv.timerStatus p hp)
    rw [hstat p.2 (Nat.ne_of_lt hlt)]
    exact hInv.timerStatus p hp
  · rw [hrq, List.nodup_append]
    refine ⟨hInv.readyNodup, List.nodup_singleton _, ?_⟩
    intro a ha hb
    rw [List.mem_singleton] at hb
    subst hb
    exact Nat.lt_irrefl _ (statusOf_lt_nextId hInv (hInv.readyStatus _ ha))
  · rw [htm]; exact hInv.timerNodup
  · rw [hts, List.map_cons, List.nodup_cons]
    refine ⟨?_, hInv.keysNodup⟩
    intro hmem
    obtain ⟨p, hp, hp1⟩ := List.mem_map.mp hmem
    exact Nat.lt_irrefl _ (hp1 ▸ hInv.keysLt p hp)
  · intro p hp
    rw [hts] at hp
    rw [List.mem_cons] at hp
    rw [hni]
    rcases hp with rfl | hp
    · exact Nat.lt_succ_self _
    · exact Nat.lt_succ_of_lt (hInv.keysLt p hp)
  · rw [htm]; exact hInv.timerSorted

theorem not_mem_ready_of_status {s : KState} (hInv : Inv s) {i : Nat}
    {st : TStatus} (h : statusOf s i = some st) (hne : st ≠ TStatus.ready) :
    i ∉ s.readyQ := by
  intro hm
  have := hInv.readyStatus i hm
  rw [h] at this
  exact hne (Option.some.inj this)

theorem timer_ne_of_status {s : KState} (hInv : Inv s) {i : Nat}
    {st : TStatus} (h : statusOf s i = some st)
    (hns : ∀ w, st ≠ TStatus.sleepingUntil w) :
    ∀ p ∈ s.timers, p.2 ≠ i := by
  intro p hp he
  subst he
  have := hInv.timerStatus p hp
  rw [h] at this
  exact hns p.1 (Option.some.inj this)

theorem runinv_get {s : KState} {tid : Nat} (hR : RunInv s tid) :
    ∃ tk₀, getTask s tid = some tk₀ ∧ tk₀.status = TStatus.ready := by
  have h := hR.tidStatus
  unfold statusOf at h
  cases h0 : getTask s tid with
  | none => rw [h0] at h; simp at h
  | some tk₀ =>
      rw [h0] at h
      exact ⟨tk₀, rfl, Option.some.inj h⟩

theorem requeue_inv {s : KState} {tid : Nat} (k : Code)
    (hInv : Inv s) (hex : ∃ tk', getTask s tid = some tk') (hnq : tid ∉ s.readyQ)
    (hnt : ∀ p ∈ s.timers, p.2 ≠ tid) :
    Inv (requeue s tid k) := by
  obtain ⟨tk₀, h0⟩ := hex
  refine set_one_inv
    ({ tk₀ with status := TStatus.ready, code := k }) hInv h0 hnq ?_ ?_ ?_ ?_
  · simp only [requeue, h0]
    rfl
  · simp only [requeue, h0]
    rfl
  · right
    constructor
    · simp only [requeue, h0]
      rfl
    · rfl
  · left
    constructor
    · simp only [requeue, h0]
      rfl
    · exact hnt

theorem getTask_wakeJoiners (s : KState) (tgt : Nat) (st : TStatus) (j : Nat) :
    getTask (wakeJoiners s tgt st) j
      = (getTask s j).map (fun t =>
          if t.status == TStatus.joining tgt then
            { t with status := TStatus.ready,
                     code := if (st != TStatus.done) then Code.raiseF else t.code }
          else t) :=
  getTask_updTasks
    (fun _ t =>
      if t.status == TStatus.joining tgt then
        { t with status := TStatus.ready,
                 code := if (st != TStatus.done) then Code.raiseF else t.code }
      else t) rfl j

theorem getTask_extSignal (s : KState) (e : Nat) (j : Nat) :
    getTask (extSignal s e) j
      = (getTask s j).map (fun t =>
          if t.status == TStatus.waitingOn e then { t with status := TStatus.ready }
          else t) :=
  getTask_updTasks
    (fun _ t =>
      if t.status == TStatus.waitingOn e then { t with status := TStatus.ready }
      else t) rfl j

/-- Resuming a popped `Ready` task preserves the Kernel invariant,
whatever its continuation requests. -/
theorem runTask_inv {s : KState} {tid : Nat} (c : Code) (hR : RunInv s tid) :
    Inv (runTask s tid c) := by
  obtain ⟨tk₀, h0, hst₀⟩ := runinv_get hR
  have hnt : ∀ p ∈ s.timers, p.2 ≠ tid := timer_ne_of_ready hR.toInv hR.tidStatus
  have hltid : tid < s.nextId := getTask_lt_nextId hR.toInv h0
  induction c with
  | ret =>
      simp only [runTask, h0]
      refine wakeJoiners_inv ?_ tid TStatus.done
      refine set_one_inv ⟨Code.ret, TStatus.done, tk₀.cancelRequested⟩
        hR.toInv h0 hR.tidNotQueued ?_ ?_ ?_ ?_
      · rfl
      · rfl
      · exact Or.inl rfl
      · exact Or.inl ⟨rfl, hnt⟩
  | raiseF =>
      simp only [runTask, h0]
      refine wakeJoiners_inv ?_ tid TStatus.failed
      refine set_one_inv ⟨Code.ret, TStatus.failed, tk₀.cancelRequested⟩
        hR.toInv h0 hR.tidNotQueued ?_ ?_ ?_ ?_
      · rfl
      · rfl
      · exact Or.inl rfl
      · exact Or.inl ⟨rfl, hnt⟩
  | sleep d k _ih =>
      simp only [runTask, h0]
      refine set_one_inv ⟨k, TStatus.sleepingUntil (s.clock + d), tk₀.cancelRequested⟩
        hR.toInv h0 hR.tidNotQueued ?_ ?_ ?_ ?_
      · rfl
      · rfl
      · exact Or.inl rfl
      · exact Or.inr (Or.inl ⟨s.clock + d, rfl, rfl, hnt⟩)
  | wait e k _ih =>
      simp only [runTask, h0]
      refine set_one_inv ⟨k, TStatus.waitingOn e, tk₀.cancelRequested⟩
        hR.toInv h0 hR.tidNotQueued ?_ ?_ ?_ ?_
      · rfl
      · rfl
      · exact Or.inl rfl
      · exact Or.inl ⟨rfl, hnt⟩
  | spawn c k _ih =>
      simp only [runTask]
      refine requeue_inv k (spawn_adm_inv c hR.toInv rfl rfl rfl rfl) ?_ ?_ ?_
      · refine ⟨tk₀, ?_⟩
        rw [getTask_cons rfl, if_neg (Nat.ne_of_lt hltid)]
        exact h0
      · intro hmem
        simp only [List.mem_append, List.mem_singleton] at hmem
        rcases hmem with hmem | hmem
        · exact hR.tidNotQueued hmem
        · exact Nat.ne_of_lt hltid hmem
      · exact hnt
  | join tgt k _ih =>
      simp only [runTask]
      cases htg : getTask s tgt with
      | none =>
          dsimp only
          simp only [h0]
          refine wakeJoiners_inv ?_ tid TStatus.failed
          refine set_one_inv ⟨Code.ret, TStatus.failed, tk₀.cancelRequested⟩
            hR.toInv h0 hR.tidNotQueued ?_ ?_ ?_ ?_
          · rfl
          · rfl
          · exact Or.inl rfl
          · exact Or.inl ⟨rfl, hnt⟩
      | some target =>
          dsimp only
          by_cases hd : (target.status == TStatus.done) = true
          · rw [if_pos hd]
            exact requeue_inv k hR.toInv ⟨_, h0⟩ hR.tidNotQueued hnt
          · rw [if_neg hd]
            by_cases hcf : (target.status == TStatus.cancelled
                || target.status == TStatus.failed) = true
            · rw [if_pos hcf]
              exact requeue_inv Code.raiseF hR.toInv ⟨_, h0⟩ hR.tidNotQueued hnt
            · rw [if_neg hcf]
              simp only [h0]
              refine set_one_inv ⟨k, TStatus.joining tgt, tk₀.cancelRequested⟩
                hR.toInv h0 hR.tidNotQueued ?_ ?_ ?_ ?_
              · rfl
              · rfl
              · exact Or.inl rfl
              · exact Or.inl ⟨rfl, hnt⟩
  | cancel tgt k _ih =>
      simp only [runTask]
      cases htg : getTask s tgt with
      | none =>
          dsimp only
          exact requeue_inv k hR.toInv ⟨_, h0⟩ hR.tidNotQueued hnt
      | some target =>
          dsimp only
          by_cases hterm : (target.status.isTerminal) = true
          · rw [if_pos hterm]
            exact requeue_inv k hR.toInv ⟨_, h0⟩ hR.tidNotQueued hnt
          · rw [if_neg hterm]
            have hstg : statusOf s tgt = some target.status := by
              unfold statusOf; rw [htg]; rfl
            cases hsc : target.status with
            | ready =>
                dsimp only
                have hset := @getTask_set_via s
                  (setTask s tgt ⟨target.code, TStatus.ready, true⟩)
                  tgt ⟨target.code, TStatus.ready, true⟩ rfl
                have htid' : ∃ tk', getTask (setTask s tgt
                    ⟨target.code, TStatus.ready, true⟩) tid = some tk' := by
                  by_cases he : tid = tgt
                  · subst he
                    rw [hset.2, h0]
                    exact ⟨_, rfl⟩
                  · rw [hset.1 tid he, h0]
                    exact ⟨_, rfl⟩
                obtain ⟨tk', htk'⟩ := htid'
                refine requeue_inv k
                  (set_flag_inv ⟨target.code, TStatus.ready, true⟩
                    hR.toInv htg hsc.symm ?_ ?_ ?_ ?_) ?_ ?_ ?_
                · rfl
                · rfl
                · rfl
                · rfl
                · exact ⟨_, htk'⟩
                · exact hR.tidNotQueued
                · exact hnt
            | sleepingUntil w =>
                dsimp only
                rw [hsc] at hstg
                have hne : tid ≠ tgt := by
                  intro he
                  have hts' := hR.tidStatus
                  rw [he, hstg] at hts'
                  simp at hts'
                have hnq' : tgt ∉ s.readyQ :=
                  not_mem_ready_of_status hR.toInv hstg (by simp)
                refine requeue_inv k
                  (set_one_inv ⟨target.code, TStatus.ready, true⟩
                    hR.toInv htg hnq' ?_ ?_ ?_ ?_) ?_ ?_ ?_
                · rfl
                · rfl
                · exact Or.inr ⟨rfl, rfl⟩
                · exact Or.inr (Or.inr rfl)
                · refine ⟨tk₀, ?_⟩
                  show getTask (setTask s tgt ⟨target.code, TStatus.ready, true⟩) tid
                    = some tk₀
                  rw [getTask_setTask_other _ hne]
                  exact h0
                · intro hmem
                  simp only [List.mem_append, List.mem_singleton] at hmem
                  rcases hmem with hmem | hmem
                  · exact hR.tidNotQueued hmem
                  · exact hne hmem
                · intro p hp
                  exact hnt p (List.mem_of_mem_filter hp)
            | waitingOn e =>
                dsimp only
                rw [hsc] at hstg
                have hne : tid ≠ tgt := by
                  intro he
                  have hts' := hR.tidStatus
                  rw [he, hstg] at hts'
                  simp at hts'
                have hnq' : tgt ∉ s.readyQ :=
                  not_mem_ready_of_status hR.toInv hstg (by simp)
                have hnt' : ∀ p ∈ s.timers, p.2 ≠ tgt :=
                  timer_ne_of_status hR.toInv hstg (by simp)
                refine requeue_inv k
                  (set_one_inv ⟨target.code, TStatus.ready, true⟩
                    hR.toInv htg hnq' ?_ ?_ ?_ ?_) ?_ ?_ ?_
                · rfl
                · rfl
                · exact Or.inr ⟨rfl, rfl⟩
                · exact Or.inl ⟨rfl, hnt'⟩
                · refine ⟨tk₀, ?_⟩
                  show getTask (setTask s tgt ⟨target.code, TStatus.ready, true⟩) tid
                    = some tk₀
                  rw [getTask_setTask_other _ hne]
                  exact h0
                · intro hmem
                  simp only [List.mem_append, List.mem_singleton] at hmem
                  rcases hmem with hmem | hmem
                  · exact hR.tidNotQueued hmem
                  · exact hne hmem
                · exact hnt
            | joining j =>
                dsimp only
                rw [hsc] at hstg
                have hne : tid ≠ tgt := by
                  intro he
                  have hts' := hR.tidStatus
                  rw [he, hstg] at hts'
                  simp at hts'
                have hnq' : tgt ∉ s.readyQ :=
                  not_mem_ready_of_status hR.toInv hstg (by simp)
                have hnt' : ∀ p ∈ s.timers, p.2 ≠ tgt :=
                  timer_ne_of_status hR.toInv hstg (by simp)
                refine requeue_inv k
                  (set_one_inv ⟨target.code, TStatus.ready, true⟩
                    hR.toInv htg hnq' ?_ ?_ ?_ ?_) ?_ ?_ ?_
                · rfl
                · rfl
                · exact Or.inr ⟨rfl, rfl⟩
                · exact Or.inl ⟨rfl, hnt'⟩
                · refine ⟨tk₀, ?_⟩
                  show getTask (setTask s tgt ⟨target.code, TStatus.ready, true⟩) tid
                    = some tk₀
                  rw [getTask_setTask_other _ hne]
                  exact h0
                · intro hmem
                  simp only [List.mem_append, List.mem_singleton] at hmem
                  rcases hmem with hmem | hmem
                  · exact hR.tidNotQueued hmem
                  · exact hne hmem
                · exact hnt
            | done => rw [hsc] at hterm; simp [TStatus.isTerminal] at hterm
            | cancelled => rw [hsc] at hterm; simp [TStatus.isTerminal] at hterm
            | failed => rw [hsc] at hterm; simp [TStatus.isTerminal] at hterm
  | signal e k _ih =>
      simp only [runTask]
      refine requeue_inv k (extSignal_inv hR.toInv e) ?_ ?_ ?_
      · refine ⟨tk₀, ?_⟩
        rw [getTask_extSignal, h0]
        have hb : (tk₀.status == TStatus.waitingOn e) = false := by
          rw [hst₀]; simp
        simp only [Option.map_some', Option.some.injEq]
        rw [if_neg ]
        intro h
        rw [hst₀] at h
        simp at h
      · intro hmem
        replace hmem : tid ∈ s.readyQ
            ++ selectIds (fun t => t.status == TStatus.waitingOn e) s.tasks := hmem
        simp only [List.mem_append] at hmem
        rcases hmem with hmem | hmem
        · exact hR.tidNotQueued hmem
        · rw [mem_selectIds hR.toInv.keysNodup] at hmem
          obtain ⟨tk, htk, hf⟩ := hmem
          have heq : tk = tk₀ := by
            have h0' := h0
            unfold getTask at h0'
            rw [htk] at h0'
            exact Option.some.inj h0'
          subst heq
          rw [hst₀] at hf
          simp at hf
      · exact hnt
  | pyCall g k _ihg ihk =>
      simp only [runTask]
      exact ihk

theorem Inv_congr {s s' : KState} (hInv : Inv s)
    (hts : s'.tasks = s.tasks) (hrq : s'.readyQ = s.readyQ)
    (htm : s'.timers = s.timers) (hni : s'.nextId = s.nextId) : Inv s' := by
  have hst : ∀ j, statusOf s' j = statusOf s j := fun j => by
    unfold statusOf; rw [getTask_eq_of_tasks hts]
  refine ⟨?_, ?_, ?_, ?_, ?_, ?_, ?_⟩
  · intro i hi; rw [hrq] at hi; rw [hst]; exact hInv.readyStatus i hi
  · intro p hp; rw [htm] at hp; rw [hst]; exact hInv.timerStatus p hp
  · rw [hrq]; exact hInv.readyNodup
  · rw [htm]; exact hInv.timerNodup
  · rw [hts]; exact hInv.keysNodup
  · intro p hp; rw [hts] at hp; rw [hni]; exact hInv.keysLt p hp
  · rw [htm]; exact hInv.timerSorted

/-- Retiring all expired TimerEntries — every task with `wake_time ≤ c`
becomes `Ready`, appended in Timer Queue order — preserves the invariant
when the ready queue was empty. -/
theorem drain_inv {s s' : KState} (hInv : Inv s) (c : Nat)
    (hq : s.readyQ = [])
    (hts : s'.tasks = updTasks (fun j t =>
      if ((s.timers.filter fun p => decide (p.1 ≤ c)).map (·.2)).contains j
      then { t with status := TStatus.ready } else t) s.tasks)
    (hrq : s'.readyQ = s.readyQ ++ (s.timers.filter fun p => decide (p.1 ≤ c)).map (·.2))
    (htm : s'.timers = s.timers.filter fun p => decide (¬ p.1 ≤ c))
    (hni : s'.nextId = s.nextId) : Inv s' := by
  have hget := getTask_updTasks _ hts
  have hmemE : ∀ j, j ∈ (s.timers.filter fun p => decide (p.1 ≤ c)).map (·.2)
      ↔ ∃ p ∈ s.timers, p.1 ≤ c ∧ p.2 = j := by
    intro j
    constructor
    · intro hj
      obtain ⟨p, hp, rfl⟩ := List.mem_map.mp hj
      obtain ⟨hp1, hp2⟩ := List.mem_filter.mp hp
      exact ⟨p, hp1, by simpa using hp2, rfl⟩
    · rintro ⟨p, hp, hple, rfl⟩
      exact List.mem_map.mpr ⟨p, List.mem_filter.mpr ⟨hp, by simpa using hple⟩, rfl⟩
  refine ⟨?_, ?_, ?_, ?_, ?_, ?_, ?_⟩
  · intro i hi
    rw [hrq, hq, List.nil_append] at hi
    obtain ⟨p, hp, hple, rfl⟩ := (hmemE i).mp hi
    have hst := hInv.timerStatus p hp
    unfold statusOf at hst ⊢
    rw [hget]
    cases hg : getTask s p.2 with
    | none => rw [hg] at hst; simp at hst
    | some tk =>
        have hcont : ((s.timers.filter fun p => decide (p.1 ≤ c)).map (·.2)).contains p.2
            = true :=
          List.elem_eq_true_of_mem ((hmemE p.2).mpr ⟨p, hp, hple, rfl⟩)
        simp only [Option.map_some', Option.some.injEq]
        rw [if_pos hcont]
  · intro p hp
    rw [htm] at hp
    obtain ⟨hp1, hp2⟩ := List.mem_filter.mp hp
    have hnle : ¬ p.1 ≤ c := by simpa using hp2
    have hst := hInv.timerStatus p hp1
    unfold statusOf at hst ⊢
    rw [hget]
    have hnc : p.2 ∉ (s.timers.filter fun q => decide (q.1 ≤ c)).map (·.2) := by
      intro hc
      obtain ⟨q, hq', hqle, hq2⟩ := (hmemE p.2).mp hc
      have hinj := List.inj_on_of_nodup_map hInv.timerNodup
      have heqq : q = p := hinj hq' hp1 hq2
      subst heqq
      exact hnle hqle
    have hcont : ((s.timers.filter fun q => decide (q.1 ≤ c)).map (·.2)).contains p.2
        = false := by
      cases hcc : ((s.timers.filter fun q => decide (q.1 ≤ c)).map (·.2)).contains p.2
      · rfl
      · exact absurd (List.mem_of_elem_eq_true hcc) hnc
    cases hg : getTask s p.2 with
    | none => rw [hg] at hst; simp at hst
    | some tk =>
        rw [hg] at hst
        simp only [Option.map_some', Option.some.injEq] at hst
        have hncond : ¬ (((s.timers.filter fun q => decide (q.1 ≤ c)).map (·.2)).contains p.2
            = true) := by
          rw [hcont]; simp
        simp only [Option.map_some', Option.some.injEq]
        rw [if_neg hncond, hst]
  · rw [hrq, hq, List.nil_append]
    exact hInv.timerNodup.sublist
      (List.Sublist.map _ (List.filter_sublist _))
  · rw [htm]
    exact hInv.timerNodup.sublist
      (List.Sublist.map _ (List.filter_sublist _))
  · rw [hts, updTasks_keys]; exact hInv.keysNodup
  · intro p hp
    rw [hts] at hp
    obtain ⟨q, hq', rfl⟩ := mem_updTasks hp
    rw [hni]
    exact hInv.keysLt q hq'
  · rw [htm]
    exact hInv.timerSorted.sublist (List.filter_sublist _)

/-- Dropping the popped head of the ready queue preserves the invariant. -/
theorem pop_inv {s : KState} {tid : Nat} {rest : List Nat} (hInv : Inv s)
    (hq : s.readyQ = tid :: rest) : Inv { s with readyQ := rest } := by
  refine ⟨?_, ?_, ?_, ?_, ?_, ?_, ?_⟩
  · intro i hi
    exact hInv.readyStatus i (by rw [hq]; exact List.mem_cons_of_mem _ hi)
  · intro p hp
    exact hInv.timerStatus p hp
  · have := hInv.readyNodup
    rw [hq, List.nodup_cons] at this
    exact this.2
  · exact hInv.timerNodup
  · exact hInv.keysNodup
  · exact hInv.keysLt
  · exact hInv.timerSorted

/-- One iteration of the kernel loop preserves the Kernel invariant. -/
theorem step_inv {s : KState} (hInv : Inv s) : Inv (step s) := by
  cases hq : s.readyQ with
  | cons tid rest =>
      simp only [step, hq]
      have hInv1 : Inv { s with readyQ := rest } := pop_inv hInv hq
      have hnq1 : tid ∉ rest := by
        have := hInv.readyNodup
        rw [hq, List.nodup_cons] at this
        exact this.1
      have hready : statusOf s tid = some TStatus.ready :=
        hInv.readyStatus tid (by rw [hq]; exact List.mem_cons_self _ _)
      have hnt : ∀ p ∈ s.timers, p.2 ≠ tid := timer_ne_of_ready hInv hready
      cases hg : getTask { s with readyQ := rest } tid with
      | none => exact hInv1
      | some tk =>
          dsimp only
          have hg' : getTask s tid = some tk := hg
          have hstk : tk.status = TStatus.ready := by
            unfold statusOf at hready
            rw [hg'] at hready
            exact Option.some.inj hready
          by_cases hcr : tk.cancelRequested = true
          · rw [if_pos hcr]
            refine wakeJoiners_inv ?_ tid TStatus.cancelled
            refine set_one_inv ⟨Code.ret, TStatus.cancelled, tk.cancelRequested⟩
              (Inv_congr hInv1 rfl rfl rfl rfl) hg hnq1 ?_ ?_ ?_ ?_
            · rfl
            · rfl
            · exact Or.inl rfl
            · exact Or.inl ⟨rfl, hnt⟩
          · rw [if_neg hcr]
            refine runTask_inv tk.code ?_
            refine ⟨Inv_congr hInv1 rfl rfl rfl rfl, ?_, ?_⟩
            · exact hready
            · exact hnq1
  | nil =>
      simp only [step, hq]
      cases htm : s.timers with
      | nil =>
          dsimp only
          exact hInv
      | cons p rest =>
          obtain ⟨w0, t0⟩ := p
          dsimp only
          exact drain_inv hInv (max s.clock w0) hq (by rw [htm]) (by rw [htm, hq])
            (by rw [htm]) rfl

theorem runTask_clock (s : KState) (tid : Nat) (c : Code) :
    (runTask s tid c).clock = s.clock := by
  induction c
  case pyCall g k _ihg ihk => simpa only [runTask] using ihk
  all_goals
    simp only [runTask, requeue, wakeJoiners, extSignal, setTask]
    repeat' split
    all_goals rfl

theorem runTask_log (s : KState) (tid : Nat) (c : Code) :
    (runTask s tid c).log = s.log := by
  induction c
  case pyCall g k _ihg ihk => simpa only [runTask] using ihk
  all_goals
    simp only [runTask, requeue, wakeJoiners, extSignal, setTask]
    repeat' split
    all_goals rfl

theorem step_clock_mono (s : KState) : s.clock ≤ (step s).clock := by
  cases hq : s.readyQ with
  | cons tid rest =>
      simp only [step, hq]
      cases hg : getTask { s with readyQ := rest } tid with
      | none => exact Nat.le_refl _
      | some tk =>
          dsimp only
          by_cases hcr : tk.cancelRequested = true
          · rw [if_pos hcr]; exact Nat.le_refl _
          · rw [if_neg hcr, runTask_clock]
  | nil =>
      simp only [step, hq]
      cases htm : s.timers with
      | nil =>
          dsimp only
          exact Nat.le_refl _
      | cons p rest =>
          obtain ⟨w0, t0⟩ := p
          dsimp only
          exact Nat.le_max_left _ _

theorem getTask_requeue_other {s : KState} {tid t : Nat} (k : Code)
    (hne : t ≠ tid) : getTask (requeue s tid k) t = getTask s t := by
  unfold requeue
  cases h : getTask s tid with
  | none => rfl
  | some tk =>
      dsimp only
      exact getTask_setTask_other _ hne

/-- How the entry of a task `t` other than the running one can evolve
during a single resumption: it stays present; a set cancellation flag
stays set; and a `SleepingUntil w` status either persists or the flag has
been set (by a `cancel` aimed at `t`). -/
theorem runTask_other_evolution {s : KState} {tid : Nat} (c : Code) {t : Nat}
    {tk : Task} (hInv : Inv s) (hne : t ≠ tid) (h : getTask s t = some tk) :
    ∃ tk', getTask (runTask s tid c) t = some tk'
      ∧ (tk.cancelRequested = true → tk'.cancelRequested = true)
      ∧ (∀ w, tk.status = TStatus.sleepingUntil w →
          tk'.status = TStatus.sleepingUntil w ∨ tk'.cancelRequested = true) := by
  have hlt : t < s.nextId := getTask_lt_nextId hInv h
  induction c with
  | ret =>
      simp only [runTask]
      cases h0 : getTask s tid with
      | none => exact ⟨tk, h, fun hf => hf, fun w hw => Or.inl hw⟩
      | some tk₀ =>
          dsimp only
          rw [getTask_wakeJoiners]
          rw [getTask_eq_of_tasks (s := setTask s tid _) rfl,
            getTask_setTask_other _ hne, h]
          refine ⟨_, rfl, ?_, ?_⟩
          · intro hf
            by_cases hj : (tk.status == TStatus.joining tid) = true <;>
              simp [hj, hf]
          · intro w hw
            have hj : (tk.status == TStatus.joining tid) = false := by
              rw [hw]; simp
            simp [hj, hw]
  | raiseF =>
      simp only [runTask]
      cases h0 : getTask s tid with
      | none => exact ⟨tk, h, fun hf => hf, fun w hw => Or.inl hw⟩
      | some tk₀ =>
          dsimp only
          rw [getTask_wakeJoiners]
          rw [getTask_eq_of_tasks (s := setTask s tid _) rfl,
            getTask_setTask_other _ hne, h]
          refine ⟨_, rfl, ?_, ?_⟩
          · intro hf
            by_cases hj : (tk.status == TStatus.joining tid) = true <;>
              simp [hj, hf]
          · intro w hw
            have hj : (tk.status == TStatus.joining tid) = false := by
              rw [hw]; simp
            simp [hj, hw]
  | sleep d k _ih =>
      simp only [runTask]
      cases h0 : getTask s tid with
      | none => exact ⟨tk, h, fun hf => hf, fun w hw => Or.inl hw⟩
      | some tk₀ =>
          dsimp only
          refine ⟨tk, ?_, fun hf => hf, fun w hw => Or.inl hw⟩
          show getTask (setTask s tid _) t = some tk
          rw [getTask_setTask_other _ hne]
          exact h
  | wait e k _ih =>
      simp only [runTask]
      cases h0 : getTask s tid with
      | none => exact ⟨tk, h, fun hf => hf, fun w hw => Or.inl hw⟩
      | some tk₀ =>
          dsimp only
          refine ⟨tk, ?_, fun hf => hf, fun w hw => Or.inl hw⟩
          rw [getTask_setTask_other _ hne]
          exact h
  | spawn c k _ih =>
      simp only [runTask]
      refine ⟨tk, ?_, fun hf => hf, fun w hw => Or.inl hw⟩
      rw [getTask_requeue_other _ hne]
      rw [getTask_cons rfl, if_neg (Nat.ne_of_lt hlt)]
      exact h
  | join tgt k _ih =>
      simp only [runTask]
      cases htg : getTask s tgt with
      | none =>
          dsimp only
          cases h0 : getTask s tid with
          | none => exact ⟨tk, h, fun hf => hf, fun w hw => Or.inl hw⟩
          | some tk₀ =>
              dsimp only
              rw [getTask_wakeJoiners]
              rw [getTask_eq_of_tasks (s := setTask s tid _) rfl,
                getTask_setTask_other _ hne, h]
              refine ⟨_, rfl, ?_, ?_⟩
              · intro hf
                by_cases hj : (tk.status == TStatus.joining tid) = true <;>
                  simp [hj, hf]
              · intro w hw
                have hj : (tk.status == TStatus.joining tid) = false := by
                  rw [hw]; simp
                simp [hj, hw]
      | some target =>
          dsimp only
          by_cases hd : (target.status == TStatus.done) = true
          · rw [if_pos hd]
            refine ⟨tk, ?_, fun hf => hf, fun w hw => Or.inl hw⟩
            rw [getTask_requeue_other _ hne]
            exact h
          · rw [if_neg hd]
            by_cases hcf : (target.status == TStatus.cancelled
                || target.status == TStatus.failed) = true
            · rw [if_pos hcf]
              refine ⟨tk, ?_, fun hf => hf, fun w hw => Or.inl hw⟩
              rw [getTask_requeue_other _ hne]
              exact h
            · rw [if_neg hcf]
              cases h0 : getTask s tid with
              | none => exact ⟨tk, h, fun hf => hf, fun w hw => Or.inl hw⟩
              | some tk₀ =>
                  dsimp only
                  refine ⟨tk, ?_, fun hf => hf, fun w hw => Or.inl hw⟩
                  rw [getTask_setTask_other _ hne]
                  exact h
  | cancel tgt k _ih =>
      simp only [runTask]
      cases htg : getTask s tgt with
      | none =>
          dsimp only
          refine ⟨tk, ?_, fun hf => hf, fun w hw => Or.inl hw⟩
          rw [getTask_requeue_other _ hne]
          exact h
      | some target =>
          dsimp only
          by_cases hterm : (target.status.isTerminal) = true
          · rw [if_pos hterm]
            refine ⟨tk, ?_, fun hf => hf, fun w hw => Or.inl hw⟩
            rw [getTask_requeue_other _ hne]
            exact h
          · rw [if_neg hterm]
            by_cases he : t = tgt
            · subst he
              have htk : target = tk := by
                rw [h] at htg
                exact (Option.some.inj htg).symm
              subst htk
              cases hsc : target.status with
              | ready =>
                  dsimp only
                  refine ⟨⟨target.code, TStatus.ready, true⟩, ?_, fun _ => rfl,
                    fun w hw => Or.inr rfl⟩
                  rw [getTask_requeue_other _ hne]
                  rw [getTask_setTask_same, htg]
                  rfl
              | sleepingUntil w =>
                  dsimp only
                  refine ⟨⟨target.code, TStatus.ready, true⟩, ?_, fun _ => rfl,
                    fun w' hw' => Or.inr rfl⟩
                  rw [getTask_requeue_other _ hne]
                  show getTask (setTask s t ⟨target.code, TStatus.ready, true⟩) t
                    = some ⟨target.code, TStatus.ready, true⟩
                  rw [getTask_setTask_same, htg]
                  rfl
              | waitingOn e =>
                  dsimp only
                  refine ⟨⟨target.code, TStatus.ready, true⟩, ?_, fun _ => rfl,
                    fun w' hw' => Or.inr rfl⟩
                  rw [getTask_requeue_other _ hne]
                  show getTask (setTask s t ⟨target.code, TStatus.ready, true⟩) t
                    = some ⟨target.code, TStatus.ready, true⟩
                  rw [getTask_setTask_same, htg]
                  rfl
              | joining j =>
                  dsimp only
                  refine ⟨⟨target.code, TStatus.ready, true⟩, ?_, fun _ => rfl,
                    fun w' hw' => Or.inr rfl⟩
                  rw [getTask_requeue_other _ hne]
                  show getTask (setTask s t ⟨target.code, TStatus.ready, true⟩) t
                    = some ⟨target.code, TStatus.ready, true⟩
                  rw [getTask_setTask_same, htg]
                  rfl
              | done => rw [hsc] at hterm; simp [TStatus.isTerminal] at hterm
              | cancelled => rw [hsc] at hterm; simp [TStatus.isTerminal] at hterm
              | failed => rw [hsc] at hterm; simp [TStatus.isTerminal] at hterm
            · cases hsc : target.status with
              | ready =>
                  dsimp only
                  refine ⟨tk, ?_, fun hf => hf, fun w hw => Or.inl hw⟩
                  rw [getTask_requeue_other _ hne]
                  rw [getTask_setTask_other _ he]
                  exact h
              | sleepingUntil w =>
                  dsimp only
                  refine ⟨tk, ?_, fun hf => hf, fun w' hw' => Or.inl hw'⟩
                  rw [getTask_requeue_other _ hne]
                  show getTask (setTask s tgt ⟨target.code, TStatus.ready, true⟩) t
                    = some tk
                  rw [getTask_setTask_other _ he]
                  exact h
              | waitingOn e =>
                  dsimp only
                  refine ⟨tk, ?_, fun hf => hf, fun w' hw' => Or.inl hw'⟩
                  rw [getTask_requeue_other _ hne]
                  show getTask (setTask s tgt ⟨target.code, TStatus.ready, true⟩) t
                    = some tk
                  rw [getTask_setTask_other _ he]
                  exact h
              | joining j =>
                  dsimp only
                  refine ⟨tk, ?_, fun hf => hf, fun w' hw' => Or.inl hw'⟩
                  rw [getTask_requeue_other _ hne]
                  show getTask (setTask s tgt ⟨target.code, TStatus.ready, true⟩) t
                    = some tk
                  rw [getTask_setTask_other _ he]
                  exact h
              | done => rw [hsc] at hterm; simp [TStatus.isTerminal] at hterm
              | cancelled => rw [hsc] at hterm; simp [TStatus.isTerminal] at hterm
              | failed => rw [hsc] at hterm; simp [TStatus.isTerminal] at hterm
  | signal e k _ih =>
      simp only [runTask]
      rw [getTask_requeue_other _ hne, getTask_extSignal, h]
      refine ⟨_, rfl, ?_, ?_⟩
      · intro hf
        by_cases hj : (tk.status == TStatus.waitingOn e) = true <;>
          simp [hj, hf]
      · intro w hw
        have hj : (tk.status == TStatus.waitingOn e) = false := by
          rw [hw]; simp
        simp [hj, hw]
  | pyCall g k _ihg ihk =>
      simp only [runTask]
      exact ihk

theorem step_guard {s : KState} {t w : Nat} (hInv : Inv s)
    (hg : sleepGuard s t w) : sleepGuard (step s) t w := by
  rcases hg with hs | hf | hc
  · -- t sleeps until w
    have hget : ∃ tk, getTask s t = some tk ∧ tk.status = TStatus.sleepingUntil w := by
      unfold statusOf at hs
      cases hg0 : getTask s t with
      | none => rw [hg0] at hs; simp at hs
      | some tk => rw [hg0] at hs; exact ⟨tk, rfl, Option.some.inj hs⟩
    obtain ⟨tk, htk, hsl⟩ := hget
    cases hq : s.readyQ with
    | cons tid rest =>
        have hne : t ≠ tid := by
          intro he
          have := hInv.readyStatus tid (by rw [hq]; exact List.mem_cons_self _ _)
          rw [← he] at this
          rw [hs] at this
          simp at this
        simp only [step, hq]
        cases hg0 : getTask { s with readyQ := rest } tid with
        | none => exact Or.inl hs
        | some tk₀ =>
            dsimp only
            by_cases hcr : tk₀.cancelRequested = true
            · rw [if_pos hcr]
              left
              unfold statusOf
              rw [getTask_wakeJoiners]
              rw [getTask_eq_of_tasks
                (s := setTask
                  { s with
                      readyQ := rest,
                      log := s.log ++ [(s.clock, tid, LEvt.cancelDelivered)] }
                  tid ⟨Code.ret, TStatus.cancelled, tk₀.cancelRequested⟩) rfl]
              rw [getTask_setTask_other _ hne]
              have hsame : getTask
                  { s with
                      readyQ := rest,
                      log := s.log ++ [(s.clock, tid, LEvt.cancelDelivered)] }
                  t = some tk := htk
              rw [hsame]
              have hj : (tk.status == TStatus.joining tid) = false := by
                rw [hsl]; simp
              simp [hj, hsl]
            · rw [if_neg hcr]
              have hInv2 : Inv
                  { s with
                      readyQ := rest,
                      log := s.log ++ [(s.clock, tid, LEvt.resumed)] } :=
                Inv_congr (pop_inv hInv hq) rfl rfl rfl rfl
              have h2 : getTask
                  { s with
                      readyQ := rest,
                      log := s.log ++ [(s.clock, tid, LEvt.resumed)] }
                  t = some tk := htk
              obtain ⟨tk', hget', _, hstat'⟩ :=
                runTask_other_evolution tk₀.code hInv2 hne h2
              rcases hstat' w hsl with hst' | hfl'
              · left
                unfold statusOf
                rw [hget']
                simp [hst']
              · right; left
                unfold flagOf
                rw [hget']
                simp [hfl']
    | nil =>
        simp only [step, hq]
        cases htm : s.timers with
        | nil =>
            dsimp only
            exact Or.inl hs
        | cons p rest =>
            obtain ⟨w0, t0⟩ := p
            dsimp only
            by_cases hmem : t ∈ ((((w0, t0) :: rest).filter
                fun q => decide (q.1 ≤ max s.clock w0)).map (·.2))
            · right; right
              obtain ⟨q, hq', hq2⟩ := List.mem_map.mp hmem
              obtain ⟨hq1, hqle⟩ := List.mem_filter.mp hq'
              have hq1' : q ∈ s.timers := by rw [htm]; exact hq1
              have hstq := hInv.timerStatus q hq1'
              rw [hq2] at hstq
              rw [hs] at hstq
              have hw : q.1 = w := by
                have := Option.some.inj hstq
                cases this
                rfl
              show w ≤ max s.clock w0
              rw [← hw]
              simpa using hqle
            · left
              unfold statusOf
              rw [getTask_updTasks (fun j u =>
                if ((((w0, t0) :: rest).filter
                    fun q => decide (q.1 ≤ max s.clock w0)).map (·.2)).contains j
                then { u with status := TStatus.ready } else u) rfl]
              rw [htk]
              have hcont : (((((w0, t0) :: rest).filter
                  fun q => decide (q.1 ≤ max s.clock w0)).map (·.2)).contains t) = false := by
                cases hcc : (((((w0, t0) :: rest).filter
                    fun q => decide (q.1 ≤ max s.clock w0)).map (·.2)).contains t)
                · rfl
                · exact absurd (List.mem_of_elem_eq_true hcc) hmem
              simp only [Option.map_some', Option.some.injEq]
              have hncond : ¬ ((((((w0, t0) :: rest).filter
                  fun q => decide (q.1 ≤ max s.clock w0)).map (·.2)).contains t) = true) := by
                rw [hcont]; simp
              rw [if_neg hncond]
              exact hsl
  · -- t's cancellation flag is set
    have hget : ∃ tk, getTask s t = some tk ∧ tk.cancelRequested = true := by
      unfold flagOf at hf
      cases hg0 : getTask s t with
      | none => rw [hg0] at hf; simp at hf
      | some tk => rw [hg0] at hf; exact ⟨tk, rfl, Option.some.inj hf⟩
    obtain ⟨tk, htk, hflag⟩ := hget
    cases hq : s.readyQ with
    | cons tid rest =>
        simp only [step, hq]
        cases hg0 : getTask { s with readyQ := rest } tid with
        | none => exact Or.inr (Or.inl hf)
        | some tk₀ =>
            dsimp only
            by_cases hcr : tk₀.cancelRequested = true
            · rw [if_pos hcr]
              right; left
              unfold flagOf
              rw [getTask_wakeJoiners]
              by_cases he : t = tid
              · subst he
                rw [getTask_eq_of_tasks
                  (s := setTask
                    { s with
                        readyQ := rest,
                        log := s.log ++ [(s.clock, t, LEvt.cancelDelivered)] }
                    t ⟨Code.ret, TStatus.cancelled, tk₀.cancelRequested⟩) rfl]
                rw [getTask_setTask_same]
                have hsame : getTask
                    { s with
                        readyQ := rest,
                        log := s.log ++ [(s.clock, t, LEvt.cancelDelivered)] }
                    t = some tk := htk
                rw [hsame]
                simp [hcr]
              · rw [getTask_eq_of_tasks
                  (s := setTask
                    { s with
                        readyQ := rest,
                        log := s.log ++ [(s.clock, tid, LEvt.cancelDelivered)] }
                    tid ⟨Code.ret, TStatus.cancelled, tk₀.cancelRequested⟩) rfl]
                rw [getTask_setTask_other _ he]
                have hsame : getTask
                    { s with
                        readyQ := rest,
                        log := s.log ++ [(s.clock, tid, LEvt.cancelDelivered)] }
                    t = some tk := htk
                rw [hsame]
                simp only [Option.map_some', Option.some.injEq]
                by_cases hj : (tk.status == TStatus.joining tid) = true
                · rw [if_pos hj]; exact hflag
                · rw [if_neg hj]; exact hflag
            · rw [if_neg hcr]
              have hne : t ≠ tid := by
                intro he
                subst he
                have : tk₀ = tk := Option.some.inj ((hg0 :
                  getTask s t = some tk₀).symm.trans htk)
                subst this
                exact hcr hflag
              have hInv2 : Inv
                  { s with
                      readyQ := rest,
                      log := s.log ++ [(s.clock, tid, LEvt.resumed)] } :=
                Inv_congr (pop_inv hInv hq) rfl rfl rfl rfl
              have h2 : getTask
                  { s with
                      readyQ := rest,
                      log := s.log ++ [(s.clock, tid, LEvt.resumed)] }
                  t = some tk := htk
              obtain ⟨tk', hget', hflag', _⟩ :=
                runTask_other_evolution tk₀.code hInv2 hne h2
              right; left
              unfold flagOf
              rw [hget']
              simp [hflag' hflag]
    | nil =>
        simp only [step, hq]
        cases htm : s.timers with
        | nil =>
            dsimp only
            exact Or.inr (Or.inl hf)
        | cons p rest =>
            obtain ⟨w0, t0⟩ := p
            dsimp only
            right; left
            unfold flagOf
            rw [getTask_updTasks (fun j u =>
              if ((((w0, t0) :: rest).filter
                  fun q => decide (q.1 ≤ max s.clock w0)).map (·.2)).contains j
              then { u with status := TStatus.ready } else u) rfl]
            rw [htk]
            simp only [Option.map_some', Option.some.injEq]
            by_cases hcc : (((((w0, t0) :: rest).filter
                fun q => decide (q.1 ≤ max s.clock w0)).map (·.2)).contains t) = true
            · rw [if_pos hcc]; exact hflag
            · rw [if_neg hcc]; exact hflag
  · -- the clock has reached w already
    exact Or.inr (Or.inr (Nat.le_trans hc (step_clock_mono s)))

/-- Any `resumed` entry a kernel step adds to the log belongs to the
popped head of the ready queue, is stamped with the current clock, and is
only recorded when the task's cancellation flag is clear. -/
theorem step_log_resumed {s : KState} {cl t : Nat}
    (h : (cl, t, LEvt.resumed) ∈ (step s).log) :
    (cl, t, LEvt.resumed) ∈ s.log
      ∨ (cl = s.clock ∧ ∃ rest tk, s.readyQ = t :: rest
          ∧ getTask s t = some tk ∧ tk.cancelRequested = false) := by
  cases hq : s.readyQ with
  | cons tid rest =>
      rw [show step s = (match s.readyQ with
        | tid :: rest =>
            let s1 := { s with readyQ := rest }
            match getTask s1 tid with
            | none => s1
            | some tk =>
                if tk.cancelRequested then
                  let s2 := { s1 with
                    log := s1.log ++ [(s1.clock, tid, LEvt.cancelDelivered)] }
                  wakeJoiners
                    (setTask s2 tid { tk with status := TStatus.cancelled, code := Code.ret })
                    tid TStatus.cancelled
                else
                  let s2 := { s1 with log := s1.log ++ [(s1.clock, tid, LEvt.resumed)] }
                  runTask s2 tid tk.code
        | [] =>
            match s.timers with
            | [] => s
            | (w0, _) :: _ =>
                let c := max s.clock w0
                let expired := (s.timers.filter fun p => decide (p.1 ≤ c)).map (·.2)
                { s with
                  clock := c,
                  timers := s.timers.filter fun p => decide (¬ p.1 ≤ c),
                  tasks := updTasks (fun j t =>
                    if expired.contains j then { t with status := TStatus.ready } else t)
                    s.tasks,
                  readyQ := s.readyQ ++ expired }) from rfl, hq] at h
      dsimp only at h
      cases hg : getTask { s with readyQ := rest } tid with
      | none =>
          rw [hg] at h
          exact Or.inl h
      | some tk =>
          rw [hg] at h
          dsimp only at h
          by_cases hcr : tk.cancelRequested = true
          · rw [if_pos hcr] at h
            have hlog : (wakeJoiners
                (setTask
                  { s with
                      readyQ := rest,
                      log := s.log ++ [(s.clock, tid, LEvt.cancelDelivered)] }
                  tid ⟨Code.ret, TStatus.cancelled, tk.cancelRequested⟩)
                tid TStatus.cancelled).log
                = s.log ++ [(s.clock, tid, LEvt.cancelDelivered)] := rfl
            rw [hlog] at h
            rw [List.mem_append] at h
            rcases h with h | h
            · exact Or.inl h
            · rw [List.mem_singleton] at h
              exact absurd (congrArg (fun q => q.2.2) h) (by simp)
          · rw [if_neg hcr] at h
            rw [runTask_log] at h
            have hlog : ({ s with
                readyQ := rest,
                log := s.log ++ [(s.clock, tid, LEvt.resumed)] } : KState).log
                = s.log ++ [(s.clock, tid, LEvt.resumed)] := rfl
            rw [hlog, List.mem_append] at h
            rcases h with h | h
            · exact Or.inl h
            · rw [List.mem_singleton] at h
              have hcl : cl = s.clock := congrArg (fun q => q.1) h
              have ht : t = tid := congrArg (fun q => q.2.1) h
              subst ht
              exact Or.inr ⟨hcl, rest, tk, rfl, hg, by
                cases hb : tk.cancelRequested
                · rfl
                · exact absurd hb hcr⟩
  | nil =>
      simp only [step, hq] at h
      cases htm : s.timers with
      | nil =>
          rw [htm] at h
          exact Or.inl h
      | cons p rest =>
          obtain ⟨w0, t0⟩ := p
          rw [htm] at h
          exact Or.inl h

/-- `n` kernel iterations preserve the invariant. -/
theorem stepN_inv {s : KState} (hInv : Inv s) (n : Nat) : Inv (stepN n s) := by
  induction n generalizing s with
  | zero => exact hInv
  | succ n ih => exact ih (step_inv hInv)

/-- Under the guard, a task is never logged as resumed before its wake
time: every `resumed` entry for it in any future log is either already
present or stamped no earlier than `w`. -/
theorem guard_log_resumed {s : KState} {t w : Nat} (hInv : Inv s)
    (hg : sleepGuard s t w) (n : Nat) :
    ∀ cl, (cl, t, LEvt.resumed) ∈ (stepN n s).log →
      (cl, t, LEvt.resumed) ∈ s.log ∨ w ≤ cl := by
  induction n generalizing s with
  | zero => exact fun cl h => Or.inl h
  | succ n ih =>
      intro cl h
      have h' := ih (step_inv hInv) (step_guard hInv hg) cl h
      rcases h' with h' | h'
      · rcases step_log_resumed h' with h'' | ⟨hcl, rest, tk, hq', htk', hflag'⟩
        · exact Or.inl h''
        · right
          rcases hg with hs | hf | hc
          · exfalso
            have := hInv.readyStatus t (by rw [hq']; exact List.mem_cons_self _ _)
            rw [hs] at this
            simp at this
          · exfalso
            unfold flagOf at hf
            rw [htk'] at hf
            simp only [Option.map_some', Option.some.injEq] at hf
            rw [hflag'] at hf
            exact Bool.false_ne_true hf
          · rw [hcl]
            exact hc
      · exact Or.inr h'

theorem initK_inv (root : Code) : Inv (initK root) := by
  refine ⟨?_, ?_, ?_, ?_, ?_, ?_, ?_⟩
  · intro i hi
    replace hi : i ∈ [0] := hi
    rw [List.mem_singleton] at hi
    subst hi
    rfl
  · intro p hp
    exact absurd hp (List.not_mem_nil p)
  · exact List.nodup_singleton _
  · exact List.nodup_nil
  · exact List.nodup_singleton _
  · intro p hp
    replace hp : p ∈ [(0, (⟨root, TStatus.ready, false⟩ : Task))] := hp
    rw [List.mem_singleton] at hp
    subst hp
    exact Nat.zero_lt_one
  · exact List.Pairwise.nil

/-- C1: a Task resumed with continuation `sleep(d); k` while its
cancellation flag is clear is put to sleep until `start + d`, where
`start` is the clock at the call; thereafter the Kernel never logs a
(normal) resumption of it stamped earlier than `start + d`, however many
iterations run and whatever the other tasks do — the only event that can
reach it earlier is a cancellation delivery, which is a distinct
scheduling event.  The extra delay beyond `start + d` is unbounded (other
ready tasks may occupy the CPU first). -/
theorem sleep_never_resumed_early {s : KState} {tid : Nat} {tk : Task}
    {rest : List Nat} (d : Nat) (k : Code)
    (hInv : Inv s) (hq : s.readyQ = tid :: rest)
    (htk : getTask s tid = some tk) (hcode : tk.code = Code.sleep d k)
    (hflag : tk.cancelRequested = false) :
    statusOf (step s) tid = some (TStatus.sleepingUntil (s.clock + d))
    ∧ ∀ n cl, (cl, tid, LEvt.resumed) ∈ (stepN n (step s)).log →
        (cl, tid, LEvt.resumed) ∈ (step s).log ∨ s.clock + d ≤ cl := by
  have h1 : statusOf (step s) tid = some (TStatus.sleepingUntil (s.clock + d)) := by
    simp only [step, hq]
    rw [show getTask { s with readyQ := rest } tid = some tk from htk]
    dsimp only
    rw [if_neg (by rw [hflag]; exact Bool.false_ne_true)]
    rw [hcode]
    simp only [runTask]
    rw [show getTask
      { s with
          readyQ := rest,
          log := s.log ++ [(s.clock, tid, LEvt.resumed)] } tid = some tk from htk]
    dsimp only
    show statusOf (setTask
      { s with
          readyQ := rest,
          log := s.log ++ [(s.clock, tid, LEvt.resumed)] }
      tid ⟨k, TStatus.sleepingUntil (s.clock + d), tk.cancelRequested⟩) tid
      = some (TStatus.sleepingUntil (s.clock + d))
    have htk2 : getTask
        { s with
            readyQ := rest,
            log := s.log ++ [(s.clock, tid, LEvt.resumed)] } tid = some tk := htk
    rw [statusOf_setTask_same htk2]
  refine ⟨h1, ?_⟩
  intro n cl h
  exact guard_log_resumed (step_inv hInv) (Or.inl h1) n cl h

/-- Witness for C1: the root task of `run(sleep 5)` goes to sleep until
tick 5 and is never logged as resumed before tick 5. -/
theorem sleep_never_resumed_early_witness :
    statusOf (step (initK (Code.sleep 5 Code.ret))) 0
      = some (TStatus.sleepingUntil 5)
    ∧ ∀ n cl, (cl, 0, LEvt.resumed) ∈ (stepN n (step (initK (Code.sleep 5 Code.ret)))).log →
        (cl, 0, LEvt.resumed) ∈ (step (initK (Code.sleep 5 Code.ret))).log ∨ 5 ≤ cl :=
  sleep_never_resumed_early 5 Code.ret (initK_inv _) rfl rfl rfl rfl

theorem requeue_fields {s : KState} {tid : Nat} {tk₀ : Task} (k : Code)
    (h0 : getTask s tid = some tk₀) :
    getTask (requeue s tid k) tid = some ⟨k, TStatus.ready, tk₀.cancelRequested⟩
    ∧ (requeue s tid k).readyQ = s.readyQ ++ [tid]
    ∧ (requeue s tid k).timers = s.timers
    ∧ (requeue s tid k).clock = s.clock
    ∧ (requeue s tid k).log = s.log := by
  simp only [requeue, h0]
  refine ⟨?_, rfl, rfl, rfl, rfl⟩
  show getTask (setTask s tid ⟨k, TStatus.ready, tk₀.cancelRequested⟩) tid = _
  rw [getTask_setTask_same, h0]
  rfl

/-- A task that reaches the head of the ready queue with its cancellation
flag set receives the cancellation signal right there — at its suspension
point: the step turns it `Cancelled` and logs the delivery (its cleanup),
rather than resuming its continuation. -/
theorem cancel_delivery {s₂ : KState} {t : Nat} {tk₂ : Task} {rest₂ : List Nat}
    (hq : s₂.readyQ = t :: rest₂) (htk : getTask s₂ t = some tk₂)
    (hflag : tk₂.cancelRequested = true) :
    statusOf (step s₂) t = some TStatus.cancelled
    ∧ (step s₂).log = s₂.log ++ [(s₂.clock, t, LEvt.cancelDelivered)] := by
  simp only [step, hq]
  rw [show getTask { s₂ with readyQ := rest₂ } t = some tk₂ from htk]
  dsimp only
  rw [if_pos hflag]
  constructor
  · unfold statusOf
    rw [getTask_wakeJoiners, getTask_setTask_same]
    have hX : getTask
        { s₂ with
            readyQ := rest₂,
            log := s₂.log ++ [(s₂.clock, t, LEvt.cancelDelivered)] } t = some tk₂ := htk
    rw [hX]
    simp
  · rfl

/-- C2: a `cancel()` aimed at a task that is `SleepingUntil` (or
`WaitingOn`) takes effect in the very step that processes it: the target's
cancellation flag is set and it is forced `Ready` at once — its TimerEntry
is removed from the Timer Queue (resp. it leaves the Event's waiter set) —
with the clock unchanged, hence strictly before its original wake time
whenever the cancel is processed before that time; and the cancellation
signal is then delivered at the target's very next suspension point: the
next time it reaches the head of the ready queue, the kernel delivers
cancellation instead of resuming it. -/
theorem cancel_forces_ready {s : KState} {tid tgt : Nat} {tk target : Task}
    {rest : List Nat} (k : Code)
    (hInv : Inv s) (hq : s.readyQ = tid :: rest)
    (htk : getTask s tid = some tk) (hflag : tk.cancelRequested = false)
    (hcode : tk.code = Code.cancel tgt k)
    (htg : getTask s tgt = some target)
    (hsw : (∃ w, target.status = TStatus.sleepingUntil w)
        ∨ (∃ e, target.status = TStatus.waitingOn e)) :
    statusOf (step s) tgt = some TStatus.ready
    ∧ flagOf (step s) tgt = some true
    ∧ (∀ p ∈ (step s).timers, p.2 ≠ tgt)
    ∧ tgt ∈ (step s).readyQ
    ∧ (step s).clock = s.clock
    ∧ (∀ s₂ rest₂ tk₂, s₂.readyQ = tgt :: rest₂ → getTask s₂ tgt = some tk₂ →
        tk₂.cancelRequested = true →
        statusOf (step s₂) tgt = some TStatus.cancelled
        ∧ (step s₂).log = s₂.log ++ [(s₂.clock, tgt, LEvt.cancelDelivered)]) := by
  have hready : statusOf s tid = some TStatus.ready :=
    hInv.readyStatus tid (by rw [hq]; exact List.mem_cons_self _ _)
  have htkready : tk.status = TStatus.ready := by
    unfold statusOf at hready
    rw [htk] at hready
    exact Option.some.inj hready
  have hne : tid ≠ tgt := by
    intro he
    subst he
    have : target = tk := Option.some.inj (htg.symm.trans htk)
    subst this
    rcases hsw with ⟨w, hw⟩ | ⟨e, he'⟩
    · rw [htkready] at hw; exact TStatus.noConfusion hw
    · rw [htkready] at he'; exact TStatus.noConfusion he'
  have hstep : ∀ s₂ rest₂ tk₂, s₂.readyQ = tgt :: rest₂ → getTask s₂ tgt = some tk₂ →
      tk₂.cancelRequested = true →
      statusOf (step s₂) tgt = some TStatus.cancelled
      ∧ (step s₂).log = s₂.log ++ [(s₂.clock, tgt, LEvt.cancelDelivered)] :=
    fun s₂ rest₂ tk₂ hq₂ htk₂ hf₂ => cancel_delivery hq₂ htk₂ hf₂
  simp only [step, hq]
  rw [show getTask { s with readyQ := rest } tid = some tk from htk]
  dsimp only
  rw [if_neg (by rw [hflag]; exact Bool.false_ne_true)]
  rw [hcode]
  simp only [runTask]
  have htg2 : getTask
      { s with
          readyQ := rest,
          log := s.log ++ [(s.clock, tid, LEvt.resumed)] } tgt = some target := htg
  rw [htg2]
  dsimp only
  have htk2 : getTask
      { s with
          readyQ := rest,
          log := s.log ++ [(s.clock, tid, LEvt.resumed)] } tid = some tk := htk
  rcases hsw with ⟨w, hsl⟩ | ⟨e, hwa⟩
  · have hterm : (target.status.isTerminal) = false := by
      rw [hsl]; rfl
    rw [if_neg (by rw [hterm]; exact Bool.false_ne_true)]
    rw [hsl]
    dsimp only
    have hGtgt : getTask (setTask
        { s with
            readyQ := rest,
            log := s.log ++ [(s.clock, tid, LEvt.resumed)] }
        tgt ⟨target.code, TStatus.ready, true⟩) tgt
        = some ⟨target.code, TStatus.ready, true⟩ := by
      rw [getTask_setTask_same, htg2]
      rfl
    have hGtid : getTask (setTask
        { s with
            readyQ := rest,
            log := s.log ++ [(s.clock, tid, LEvt.resumed)] }
        tgt ⟨target.code, TStatus.ready, true⟩) tid = some tk := by
      rw [getTask_setTask_other _ hne]
      exact htk2
    have hfields := requeue_fields
      (s :=
        { tasks := (setTask
            { s with
                readyQ := rest,
                log := s.log ++ [(s.clock, tid, LEvt.resumed)] }
            tgt ⟨target.code, TStatus.ready, true⟩).tasks,
          readyQ := rest ++ [tgt],
          timers := removeTimer tgt s.timers,
          clock := s.clock,
          nextId := s.nextId,
          log := s.log ++ [(s.clock, tid, LEvt.resumed)] }) k hGtid
    obtain ⟨hq1, hq2, hq3, hq4, _⟩ := hfields
    have hq2' : _ = (rest ++ [tgt]) ++ [tid] := hq2
    have hq3' : _ = removeTimer tgt s.timers := hq3
    refine ⟨?_, ?_, ?_, ?_, ?_, hstep⟩
    · unfold statusOf
      rw [getTask_requeue_other _ (Ne.symm hne)]
      exact (congrArg (Option.map fun x => x.status) hGtgt).trans rfl
    · unfold flagOf
      rw [getTask_requeue_other _ (Ne.symm hne)]
      exact (congrArg (Option.map fun x => x.cancelRequested) hGtgt).trans rfl
    · intro p hp he
      have hp' : p ∈ removeTimer tgt s.timers := by
        rw [← hq3']
        exact hp
      have := List.of_mem_filter hp'
      rw [he] at this
      simp at this
    · have hmem : tgt ∈ ((rest ++ [tgt]) ++ [tid]) := by simp
      rw [← hq2'] at hmem
      exact hmem
    · exact hq4
  · have hterm : (target.status.isTerminal) = false := by
      rw [hwa]; rfl
    rw [if_neg (by rw [hterm]; exact Bool.false_ne_true)]
    rw [hwa]
    dsimp only
    have hGtgt : getTask (setTask
        { s with
            readyQ := rest,
            log := s.log ++ [(s.clock, tid, LEvt.resumed)] }
        tgt ⟨target.code, TStatus.ready, true⟩) tgt
        = some ⟨target.code, TStatus.ready, true⟩ := by
      rw [getTask_setTask_same, htg2]
      rfl
    have hGtid : getTask (setTask
        { s with
            readyQ := rest,
            log := s.log ++ [(s.clock, tid, LEvt.resumed)] }
        tgt ⟨target.code, TStatus.ready, true⟩) tid = some tk := by
      rw [getTask_setTask_other _ hne]
      exact htk2
    have hfields := requeue_fields
      (s :=
        { tasks := (setTask
            { s with
                readyQ := rest,
                log := s.log ++ [(s.clock, tid, LEvt.resumed)] }
            tgt ⟨target.code, TStatus.ready, true⟩).tasks,
          readyQ := rest ++ [tgt],
          timers := s.timers,
          clock := s.clock,
          nextId := s.nextId,
          log := s.log ++ [(s.clock, tid, LEvt.resumed)] }) k hGtid
    obtain ⟨hq1, hq2, hq3, hq4, _⟩ := hfields
    have hq2' : _ = (rest ++ [tgt]) ++ [tid] := hq2
    have hq3' : _ = s.timers := hq3
    have hstg : statusOf s tgt = some (TStatus.waitingOn e) := by
      unfold statusOf; rw [htg]; simp [hwa]
    have hnt : ∀ p ∈ s.timers, p.2 ≠ tgt :=
      timer_ne_of_status hInv hstg (by simp)
    refine ⟨?_, ?_, ?_, ?_, ?_, hstep⟩
    · unfold statusOf
      rw [getTask_requeue_other _ (Ne.symm hne)]
      exact (congrArg (Option.map fun x => x.status) hGtgt).trans rfl
    · unfold flagOf
      rw [getTask_requeue_other _ (Ne.symm hne)]
      exact (congrArg (Option.map fun x => x.cancelRequested) hGtgt).trans rfl
    · intro p hp
      have hp' : p ∈ s.timers := by
        rw [← hq3']
        exact hp
      exact hnt p hp'
    · have hmem : tgt ∈ ((rest ++ [tgt]) ++ [tid]) := by simp
      rw [← hq2'] at hmem
      exact hmem
    · exact hq4

/-- Witness for C2: cancelling the sleeping task 1 removes its TimerEntry
and makes it Ready at tick 0, long before its wake time 9. -/
theorem cancel_forces_ready_witness :
    statusOf (step cancelDemoState) 1 = some TStatus.ready
    ∧ flagOf (step cancelDemoState) 1 = some true
    ∧ (∀ p ∈ (step cancelDemoState).timers, p.2 ≠ 1)
    ∧ 1 ∈ (step cancelDemoState).readyQ
    ∧ (step cancelDemoState).clock = cancelDemoState.clock
    ∧ (∀ s₂ rest₂ tk₂, s₂.readyQ = 1 :: rest₂ → getTask s₂ 1 = some tk₂ →
        tk₂.cancelRequested = true →
        statusOf (step s₂) 1 = some TStatus.cancelled
        ∧ (step s₂).log = s₂.log ++ [(s₂.clock, 1, LEvt.cancelDelivered)]) :=
  cancel_forces_ready Code.ret
    ⟨by decide, by decide, by decide, by decide, by decide, by decide, by decide⟩
    rfl rfl rfl rfl rfl (Or.inl ⟨9, rfl⟩)

/-- C3: `join()` on a task that has already reached a terminal state
returns immediately without suspending the caller: the caller stays
`Ready` (never `joining`), is re-admitted to the ready queue in the same
step, the clock does not advance, and its continuation proceeds with the
stored result (`k`) when the target is `Done`, or re-raises the stored
failure/cancellation (`raiseF`) when the target `Failed` or was
`Cancelled`. -/
theorem join_terminal_immediate {s : KState} {tid tgt : Nat} {tk target : Task}
    {rest : List Nat} (k : Code)
    (hInv : Inv s) (hq : s.readyQ = tid :: rest)
    (htk : getTask s tid = some tk) (hflag : tk.cancelRequested = false)
    (hcode : tk.code = Code.join tgt k)
    (htg : getTask s tgt = some target)
    (hterm : target.status.isTerminal = true) :
    statusOf (step s) tid = some TStatus.ready
    ∧ (step s).readyQ = rest ++ [tid]
    ∧ getTask (step s) tid
        = some ⟨(if target.status == TStatus.done then k else Code.raiseF),
            TStatus.ready, tk.cancelRequested⟩
    ∧ (step s).clock = s.clock := by
  simp only [step, hq]
  rw [show getTask { s with readyQ := rest } tid = some tk from htk]
  dsimp only
  rw [if_neg (by rw [hflag]; exact Bool.false_ne_true)]
  rw [hcode]
  simp only [runTask]
  have htg2 : getTask
      { s with
          readyQ := rest,
          log := s.log ++ [(s.clock, tid, LEvt.resumed)] } tgt = some target := htg
  have htk2 : getTask
      { s with
          readyQ := rest,
          log := s.log ++ [(s.clock, tid, LEvt.resumed)] } tid = some tk := htk
  rw [htg2]
  dsimp only
  by_cases hd : (target.status == TStatus.done) = true
  · rw [if_pos hd]
    obtain ⟨h1, h2, h3, h4, h5⟩ := requeue_fields k htk2
    have h2' : _ = rest ++ [tid] := h2
    have h4' : _ = s.clock := h4
    refine ⟨?_, h2', ?_, h4'⟩
    · unfold statusOf
      rw [h1]
      rfl
    · rw [h1, if_pos hd]
  · rw [if_neg hd]
    by_cases hcf : (target.status == TStatus.cancelled
        || target.status == TStatus.failed) = true
    · rw [if_pos hcf]
      obtain ⟨h1, h2, h3, h4, h5⟩ := requeue_fields Code.raiseF htk2
      have h2' : _ = rest ++ [tid] := h2
      have h4' : _ = s.clock := h4
      refine ⟨?_, h2', ?_, h4'⟩
      · unfold statusOf
        rw [h1]
        rfl
      · rw [h1, if_neg hd]
    · exfalso
      cases hsc : target.status with
      | done => rw [hsc] at hd; simp at hd
      | cancelled => rw [hsc] at hcf; simp at hcf
      | failed => rw [hsc] at hcf; simp at hcf
      | ready => rw [hsc] at hterm; simp [TStatus.isTerminal] at hterm
      | sleepingUntil w => rw [hsc] at hterm; simp [TStatus.isTerminal] at hterm
      | waitingOn e => rw [hsc] at hterm; simp [TStatus.isTerminal] at hterm
      | joining j => rw [hsc] at hterm; simp [TStatus.isTerminal] at hterm

/-- Witness for C3: joining the already-`Done` task 1 leaves the caller
`Ready`, re-queued at once, with its continuation and clock intact. -/
theorem join_terminal_immediate_witness :
    statusOf (step joinDemoState) 0 = some TStatus.ready
    ∧ (step joinDemoState).readyQ = [] ++ [0]
    ∧ getTask (step joinDemoState) 0
        = some ⟨(if TStatus.done == TStatus.done then Code.ret else Code.raiseF),
            TStatus.ready, false⟩
    ∧ (step joinDemoState).clock = joinDemoState.clock := by
  exact @join_terminal_immediate joinDemoState 0 1
    ⟨Code.join 1 Code.ret, TStatus.ready, false⟩
    ⟨Code.ret, TStatus.done, false⟩ [] Code.ret
    ⟨by decide, by decide, by decide, by decide, by decide, by decide, by decide⟩
    rfl rfl rfl rfl rfl rfl

theorem updTasks_no_cancel {s s' : KState} {t : Nat} (g : Nat → Task → Task)
    (h : statusOf s' t = some TStatus.cancelled)
    (hts : s'.tasks = updTasks g s.tasks)
    (hgs : ∀ j tk, (g j tk).status = TStatus.cancelled →
      tk.status = TStatus.cancelled) :
    statusOf s t = some TStatus.cancelled := by
  unfold statusOf at h ⊢
  rw [getTask_updTasks g hts] at h
  cases hg : getTask s t with
  | none => rw [hg] at h; simp at h
  | some tk =>
      rw [hg] at h
      simp only [Option.map_some'] at h ⊢
      exact congrArg some (hgs t tk (Option.some.inj h))

theorem wakeJoiners_no_cancel {s : KState} {tgt : Nat} {st : TStatus} {t : Nat}
    (h : statusOf (wakeJoiners s tgt st) t = some TStatus.cancelled) :
    statusOf s t = some TStatus.cancelled := by
  refine updTasks_no_cancel (fun _ t =>
    if t.status == TStatus.joining tgt then
      { t with status := TStatus.ready,
               code := if (st != TStatus.done) then Code.raiseF else t.code }
    else t) h rfl ?_
  intro j tk hc
  dsimp only at hc
  by_cases hj : (tk.status == TStatus.joining tgt) = true
  · rw [if_pos hj] at hc; simp at hc
  · rw [if_neg hj] at hc; exact hc

theorem extSignal_no_cancel {s : KState} {e : Nat} {t : Nat}
    (h : statusOf (extSignal s e) t = some TStatus.cancelled) :
    statusOf s t = some TStatus.cancelled := by
  refine updTasks_no_cancel (fun _ t =>
    if t.status == TStatus.waitingOn e then { t with status := TStatus.ready }
    else t) h rfl ?_
  intro j tk hc
  dsimp only at hc
  by_cases hj : (tk.status == TStatus.waitingOn e) = true
  · rw [if_pos hj] at hc; simp at hc
  · rw [if_neg hj] at hc; exact hc

theorem setTask_no_cancel {s : KState} {i : Nat} {tk₀ : Task} {t : Nat}
    (hst : tk₀.status ≠ TStatus.cancelled)
    (h : statusOf (setTask s i tk₀) t = some TStatus.cancelled) :
    statusOf s t = some TStatus.cancelled := by
  refine updTasks_no_cancel (fun j tk => if j == i then tk₀ else tk) h rfl ?_
  intro j tk hc
  dsimp only at hc
  by_cases hj : (j == i) = true
  · rw [if_pos hj] at hc; exact absurd hc hst
  · rw [if_neg hj] at hc; exact hc

theorem requeue_no_cancel {s : KState} {tid : Nat} {k : Code} {t : Nat}
    (h : statusOf (requeue s tid k) t = some TStatus.cancelled) :
    statusOf s t = some TStatus.cancelled := by
  unfold requeue at h
  cases hg : getTask s tid with
  | none => rw [hg] at h; exact h
  | some tk =>
      rw [hg] at h
      dsimp only at h
      have h' : statusOf (setTask s tid
          { tk with status := TStatus.ready, code := k }) t
          = some TStatus.cancelled := h
      exact setTask_no_cancel (by simp) h'

theorem cons_no_cancel {s s' : KState} {c : Task}
    (hts : s'.tasks = (s.nextId, c) :: s.tasks)
    (hst : c.status ≠ TStatus.cancelled) {t : Nat}
    (h : statusOf s' t = some TStatus.cancelled) :
    statusOf s t = some TStatus.cancelled := by
  unfold statusOf at h ⊢
  rw [getTask_cons hts] at h
  by_cases hb : t = s.nextId
  · rw [if_pos hb] at h
    simp only [Option.map_some'] at h
    exact absurd (Option.some.inj h) hst
  · rw [if_neg hb] at h
    exact h

/-- A resumption never makes any task `Cancelled`: whatever the popped
continuation requests, `runTask` writes the statuses `Done`, `Failed`,
`SleepingUntil`, `WaitingOn`, `Joining` and `Ready`, but never
`Cancelled`.  Turning a task `Cancelled` is exclusively the kernel
loop's act. -/
theorem runTask_no_cancel (c : Code) : ∀ {s : KState} {tid t : Nat},
    statusOf (runTask s tid c) t = some TStatus.cancelled →
    statusOf s t = some TStatus.cancelled := by
  induction c with
  | ret =>
      intro s tid t h
      simp only [runTask] at h
      cases hg : getTask s tid with
      | none => rw [hg] at h; exact h
      | some tk =>
          rw [hg] at h
          dsimp only at h
          exact setTask_no_cancel (by simp) (wakeJoiners_no_cancel h)
  | raiseF =>
      intro s tid t h
      simp only [runTask] at h
      cases hg : getTask s tid with
      | none => rw [hg] at h; exact h
      | some tk =>
          rw [hg] at h
          dsimp only at h
          exact setTask_no_cancel (by simp) (wakeJoiners_no_cancel h)
  | sleep d k ihk =>
      intro s tid t h
      simp only [runTask] at h
      cases hg : getTask s tid with
      | none => rw [hg] at h; exact h
      | some tk =>
          rw [hg] at h
          dsimp only at h
          have h' : statusOf (setTask s tid
              { tk with status := TStatus.sleepingUntil (s.clock + d), code := k }) t
              = some TStatus.cancelled := h
          exact setTask_no_cancel (by simp) h'
  | wait e k ihk =>
      intro s tid t h
      simp only [runTask] at h
      cases hg : getTask s tid with
      | none => rw [hg] at h; exact h
      | some tk =>
          rw [hg] at h
          dsimp only at h
          exact setTask_no_cancel (by simp) h
  | spawn c k ihc ihk =>
      intro s tid t h
      simp only [runTask] at h
      have h1 := requeue_no_cancel h
      refine cons_no_cancel (s := s) (c := ⟨c, TStatus.ready, false⟩) ?_ ?_ h1
      · rfl
      · simp
  | join tgt k ihk =>
      intro s tid t h
      simp only [runTask] at h
      cases hg : getTask s tgt with
      | none =>
          rw [hg] at h
          dsimp only at h
          cases hg2 : getTask s tid with
          | none => rw [hg2] at h; exact h
          | some tk =>
              rw [hg2] at h
              dsimp only at h
              exact setTask_no_cancel (by simp) (wakeJoiners_no_cancel h)
      | some target =>
          rw [hg] at h
          dsimp only at h
          by_cases hd : (target.status == TStatus.done) = true
          · rw [if_pos hd] at h
            exact requeue_no_cancel h
          · rw [if_neg hd] at h
            by_cases hcf : (target.status == TStatus.cancelled
                || target.status == TStatus.failed) = true
            · rw [if_pos hcf] at h
              exact requeue_no_cancel h
            · rw [if_neg hcf] at h
              cases hg2 : getTask s tid with
              | none => rw [hg2] at h; exact h
              | some tk =>
                  rw [hg2] at h
                  dsimp only at h
                  exact setTask_no_cancel (by simp) h
  | cancel tgt k ihk =>
      intro s tid t h
      simp only [runTask] at h
      have h1 := requeue_no_cancel h
      cases hg : getTask s tgt with
      | none => rw [hg] at h1; exact h1
      | some target =>
          rw [hg] at h1
          dsimp only at h1
          by_cases hterm : target.status.isTerminal = true
          · rw [if_pos hterm] at h1; exact h1
          · rw [if_neg hterm] at h1
            cases hst : target.status with
            | ready =>
                rw [hst] at h1
                dsimp only at h1
                exact setTask_no_cancel (by simp [hst]) h1
            | done => rw [hst] at hterm; simp [TStatus.isTerminal] at hterm
            | cancelled => rw [hst] at hterm; simp [TStatus.isTerminal] at hterm
            | failed => rw [hst] at hterm; simp [TStatus.isTerminal] at hterm
            | sleepingUntil w =>
                rw [hst] at h1
                dsimp only at h1
                have h2 : statusOf (setTask s tgt
                    { target with status := TStatus.ready, cancelRequested := true }) t
                    = some TStatus.cancelled := h1
                exact setTask_no_cancel (by simp) h2
            | waitingOn e =>
                rw [hst] at h1
                dsimp only at h1
                have h2 : statusOf (setTask s tgt
                    { target with status := TStatus.ready, cancelRequested := true }) t
                    = some TStatus.cancelled := h1
                exact setTask_no_cancel (by simp) h2
            | joining j =>
                rw [hst] at h1
                dsimp only at h1
                have h2 : statusOf (setTask s tgt
                    { target with status := TStatus.ready, cancelRequested := true }) t
                    = some TStatus.cancelled := h1
                exact setTask_no_cancel (by simp) h2
  | signal e k ihk =>
      intro s tid t h
      simp only [runTask] at h
      exact extSignal_no_cancel (requeue_no_cancel h)
  | pyCall g k ihg ihk =>
      intro s tid t h
      simp only [runTask] at h
      exact ihk h

/-- C4: a Task never observes its pending-cancellation flag between two
suspension points.  If a kernel step turns a task `Cancelled` that was
not `Cancelled` before, the step is the one that popped that very task
from the head of the ready queue — i.e. the task was at a suspension
point, about to be resumed — with its flag set, and the whole step
consists of the delivery (the only log entry is `cancelDelivered`).
Conversely, a task popped with a clear flag has its continuation segment
run uninterrupted to its next suspension request: the step logs the one
`resumed` event and no cancellation event, regardless of any flags set
mid-segment. -/
theorem cancel_only_at_suspension {s : KState} {t : Nat}
    (hc : statusOf (step s) t = some TStatus.cancelled)
    (hnc : statusOf s t ≠ some TStatus.cancelled) :
    (∃ rest tk, s.readyQ = t :: rest ∧ getTask s t = some tk
      ∧ tk.cancelRequested = true
      ∧ (step s).log = s.log ++ [(s.clock, t, LEvt.cancelDelivered)])
    ∧ (∀ s₂ tid₂ rest₂ tk₂, s₂.readyQ = tid₂ :: rest₂ →
        getTask s₂ tid₂ = some tk₂ → tk₂.cancelRequested = false →
        (step s₂).log = s₂.log ++ [(s₂.clock, tid₂, LEvt.resumed)]) := by
  refine ⟨?_, ?_⟩
  · cases hq : s.readyQ with
    | nil =>
        exfalso
        apply hnc
        simp only [step, hq] at hc
        cases htm : s.timers with
        | nil => rw [htm] at hc; exact hc
        | cons p prest =>
            obtain ⟨w0, t0⟩ := p
            rw [htm] at hc
            dsimp only at hc
            refine updTasks_no_cancel (fun j tk =>
                if ((((w0, t0) :: prest).filter fun q =>
                    decide (q.1 ≤ max s.clock w0)).map (·.2)).contains j
                then { tk with status := TStatus.ready } else tk) hc rfl ?_
            intro j tk hcc
            dsimp only at hcc
            by_cases hj : ((((w0, t0) :: prest).filter fun q =>
                decide (q.1 ≤ max s.clock w0)).map (·.2)).contains j = true
            · rw [if_pos hj] at hcc; simp at hcc
            · rw [if_neg hj] at hcc; exact hcc
    | cons tid rest =>
        simp only [step, hq] at hc
        cases hg : getTask { s with readyQ := rest } tid with
        | none =>
            rw [hg] at hc
            exact absurd hc hnc
        | some tk =>
            rw [hg] at hc
            dsimp only at hc
            have hg' : getTask s tid = some tk := hg
            by_cases hcr : tk.cancelRequested = true
            · rw [if_pos hcr] at hc
              by_cases het : t = tid
              · subst het
                exact ⟨rest, tk, rfl, hg', hcr, (cancel_delivery hq hg' hcr).2⟩
              · exfalso
                apply hnc
                have h1 := wakeJoiners_no_cancel hc
                unfold statusOf at h1 ⊢
                rw [getTask_setTask_other _ het] at h1
                exact h1
            · rw [if_neg hcr] at hc
              exfalso
              apply hnc
              have h1 := runTask_no_cancel tk.code hc
              unfold statusOf at h1 ⊢
              exact h1
  · intro s₂ tid₂ rest₂ tk₂ hq₂ htk₂ hf₂
    simp only [step, hq₂]
    rw [show getTask { s₂ with readyQ := rest₂ } tid₂ = some tk₂ from htk₂]
    dsimp only
    rw [if_neg (by rw [hf₂]; exact Bool.false_ne_true)]
    rw [runTask_log]

/-- Witness for C4: the step that cancels task 0 is exactly the delivery
at its suspension point. -/
theorem cancel_only_at_suspension_witness :
    ((∃ rest tk, deliveryDemoState.readyQ = 0 :: rest
      ∧ getTask deliveryDemoState 0 = some tk
      ∧ tk.cancelRequested = true
      ∧ (step deliveryDemoState).log
          = deliveryDemoState.log
            ++ [(deliveryDemoState.clock, 0, LEvt.cancelDelivered)])
    ∧ (∀ s₂ tid₂ rest₂ tk₂, s₂.readyQ = tid₂ :: rest₂ →
        getTask s₂ tid₂ = some tk₂ → tk₂.cancelRequested = false →
        (step s₂).log = s₂.log ++ [(s₂.clock, tid₂, LEvt.resumed)])) := by
  exact cancel_only_at_suspension (by decide) (by decide)

theorem isTerminal_shapes {st : TStatus} (h : st.isTerminal = true) :
    st ≠ TStatus.ready ∧ (∀ w, st ≠ TStatus.sleepingUntil w)
    ∧ (∀ e, st ≠ TStatus.waitingOn e) ∧ (∀ j, st ≠ TStatus.joining j) := by
  cases st <;> simp_all [TStatus.isTerminal]

theorem statusOf_wakeJoiners_other {s : KState} {tgt : Nat} {st' : TStatus}
    {t : Nat} {st : TStatus} (hst : statusOf s t = some st)
    (hnj : ∀ j, st ≠ TStatus.joining j) :
    statusOf (wakeJoiners s tgt st') t = some st := by
  unfold statusOf at hst ⊢
  rw [getTask_wakeJoiners]
  cases hg : getTask s t with
  | none => rw [hg] at hst; simp at hst
  | some tk =>
      rw [hg] at hst
      simp only [Option.map_some'] at hst ⊢
      have htk : tk.status = st := Option.some.inj hst
      have hb : ¬ ((tk.status == TStatus.joining tgt) = true) := by
        rw [htk, beq_iff_eq]
        exact hnj tgt
      rw [if_neg hb]
      exact congrArg some htk

theorem statusOf_extSignal_other {s : KState} {e : Nat}
    {t : Nat} {st : TStatus} (hst : statusOf s t = some st)
    (hnw : ∀ e₂, st ≠ TStatus.waitingOn e₂) :
    statusOf (extSignal s e) t = some st := by
  unfold statusOf at hst ⊢
  rw [getTask_extSignal]
  cases hg : getTask s t with
  | none => rw [hg] at hst; simp at hst
  | some tk =>
      rw [hg] at hst
      simp only [Option.map_some'] at hst ⊢
      have htk : tk.status = st := Option.some.inj hst
      have hb : ¬ ((tk.status == TStatus.waitingOn e) = true) := by
        rw [htk, beq_iff_eq]
        exact hnw e
      rw [if_neg hb]
      exact congrArg some htk

/-- A resumption of task `tid` never changes the status of a task `t`
already in a terminal state: `setTask` touches only `tid`, joiner/waiter
wake-ups touch only `Joining`/`WaitingOn` tasks, spawn admits a fresh
handle, and `cancel` explicitly leaves terminal targets alone. -/
theorem runTask_preserves_terminal (c : Code) :
    ∀ {s : KState} {tid t : Nat} {st : TStatus},
    statusOf s t = some st → st.isTerminal = true → t ≠ tid → t < s.nextId →
    statusOf (runTask s tid c) t = some st := by
  induction c with
  | ret =>
      intro s tid t st hst hterm hne hlt
      simp only [runTask]
      cases hg : getTask s tid with
      | none => exact hst
      | some tk =>
          dsimp only
          refine statusOf_wakeJoiners_other ?_ (isTerminal_shapes hterm).2.2.2
          rw [statusOf_setTask_other _ hne]
          exact hst
  | raiseF =>
      intro s tid t st hst hterm hne hlt
      simp only [runTask]
      cases hg : getTask s tid with
      | none => exact hst
      | some tk =>
          dsimp only
          refine statusOf_wakeJoiners_other ?_ (isTerminal_shapes hterm).2.2.2
          rw [statusOf_setTask_other _ hne]
          exact hst
  | sleep d k ihk =>
      intro s tid t st hst hterm hne hlt
      simp only [runTask]
      cases hg : getTask s tid with
      | none => exact hst
      | some tk =>
          dsimp only
          have h1 : statusOf (setTask s tid
              { tk with status := TStatus.sleepingUntil (s.clock + d), code := k }) t
              = some st := by
            rw [statusOf_setTask_other _ hne]
            exact hst
          exact h1
  | wait e k ihk =>
      intro s tid t st hst hterm hne hlt
      simp only [runTask]
      cases hg : getTask s tid with
      | none => exact hst
      | some tk =>
          dsimp only
          rw [statusOf_setTask_other _ hne]
          exact hst
  | spawn c k ihc ihk =>
      intro s tid t st hst hterm hne hlt
      simp only [runTask]
      unfold statusOf
      rw [getTask_requeue_other k hne]
      rw [getTask_cons (s := s) rfl]
      rw [if_neg (Nat.ne_of_lt hlt)]
      exact hst
  | join tgt k ihk =>
      intro s tid t st hst hterm hne hlt
      simp only [runTask]
      cases hg : getTask s tgt with
      | none =>
          dsimp only
          cases hg2 : getTask s tid with
          | none => exact hst
          | some tk =>
              dsimp only
              refine statusOf_wakeJoiners_other ?_ (isTerminal_shapes hterm).2.2.2
              rw [statusOf_setTask_other _ hne]
              exact hst
      | some target =>
          dsimp only
          by_cases hd : (target.status == TStatus.done) = true
          · rw [if_pos hd]
            unfold statusOf
            rw [getTask_requeue_other k hne]
            exact hst
          · rw [if_neg hd]
            by_cases hcf : (target.status == TStatus.cancelled
                || target.status == TStatus.failed) = true
            · rw [if_pos hcf]
              unfold statusOf
              rw [getTask_requeue_other Code.raiseF hne]
              exact hst
            · rw [if_neg hcf]
              cases hg2 : getTask s tid with
              | none => exact hst
              | some tk =>
                  dsimp only
                  rw [statusOf_setTask_other _ hne]
                  exact hst
  | cancel tgt k ihk =>
      intro s tid t st hst hterm hne hlt
      simp only [runTask]
      cases hg : getTask s tgt with
      | none =>
          dsimp only
          unfold statusOf
          rw [getTask_requeue_other k hne]
          exact hst
      | some target =>
          dsimp only
          by_cases hT : target.status.isTerminal = true
          · rw [if_pos hT]
            unfold statusOf
            rw [getTask_requeue_other k hne]
            exact hst
          · rw [if_neg hT]
            have hnt : t ≠ tgt := by
              intro he
              apply hT
              have h3 : target.status = st := by
                unfold statusOf at hst
                rw [← he] at hg
                rw [hg] at hst
                simpa using hst
              rw [h3]
              exact hterm
            cases hsc : target.status with
            | ready =>
                dsimp only
                unfold statusOf
                rw [getTask_requeue_other k hne, getTask_setTask_other _ hnt]
                exact hst
            | done => rw [hsc] at hT; simp [TStatus.isTerminal] at hT
            | cancelled => rw [hsc] at hT; simp [TStatus.isTerminal] at hT
            | failed => rw [hsc] at hT; simp [TStatus.isTerminal] at hT
            | sleepingUntil w =>
                dsimp only
                unfold statusOf
                rw [getTask_requeue_other k hne]
                have h2 : (getTask (setTask s tgt
                    { target with status := TStatus.ready, cancelRequested := true }) t).map
                    (fun tk => tk.status) = some st := by
                  rw [getTask_setTask_other _ hnt]
                  exact hst
                exact h2
            | waitingOn e =>
                dsimp only
                unfold statusOf
                rw [getTask_requeue_other k hne]
                have h2 : (getTask (setTask s tgt
                    { target with status := TStatus.ready, cancelRequested := true }) t).map
                    (fun tk => tk.status) = some st := by
                  rw [getTask_setTask_other _ hnt]
                  exact hst
                exact h2
            | joining j =>
                dsimp only
                unfold statusOf
                rw [getTask_requeue_other k hne]
                have h2 : (getTask (setTask s tgt
                    { target with status := TStatus.ready, cancelRequested := true }) t).map
                    (fun tk => tk.status) = some st := by
                  rw [getTask_setTask_other _ hnt]
                  exact hst
                exact h2
  | signal e k ihk =>
      intro s tid t st hst hterm hne hlt
      simp only [runTask]
      unfold statusOf
      rw [getTask_requeue_other k hne]
      have h2 := statusOf_extSignal_other (e := e) hst (isTerminal_shapes hterm).2.2.1
      unfold statusOf at h2
      exact h2
  | pyCall g k ihg ihk =>
      intro s tid t st hst hterm hne hlt
      simp only [runTask]
      exact ihk hst hterm hne hlt

/-- One kernel iteration neither changes a terminal task's status nor
logs any event about it: the popped head is `Ready` (so not the terminal
task), delivery and resumption both concern the head only, and the timer
drain wakes only sleeping tasks. -/
theorem step_preserves_terminal {s : KState} {t : Nat} {st : TStatus}
    (hInv : Inv s) (hst : statusOf s t = some st)
    (hterm : st.isTerminal = true) :
    statusOf (step s) t = some st
    ∧ ∀ q ∈ (step s).log, q ∈ s.log ∨ q.2.1 ≠ t := by
  have hshapes := isTerminal_shapes hterm
  cases hq : s.readyQ with
  | cons tid rest =>
      have hne : t ≠ tid := by
        intro he
        subst he
        have h0 := hInv.readyStatus t (by rw [hq]; exact List.mem_cons_self _ _)
        rw [hst] at h0
        exact hshapes.1 (Option.some.inj h0)
      simp only [step, hq]
      cases hg : getTask { s with readyQ := rest } tid with
      | none => exact ⟨hst, fun q hqm => Or.inl hqm⟩
      | some tk =>
          dsimp only
          by_cases hcr : tk.cancelRequested = true
          · rw [if_pos hcr]
            constructor
            · refine statusOf_wakeJoiners_other ?_ hshapes.2.2.2
              rw [statusOf_setTask_other _ hne]
              exact hst
            · intro q hqm
              have hqm' : q ∈ s.log ++ [(s.clock, tid, LEvt.cancelDelivered)] := hqm
              rw [List.mem_append] at hqm'
              rcases hqm' with h | h
              · exact Or.inl h
              · rw [List.mem_singleton] at h
                subst h
                exact Or.inr (Ne.symm hne)
          · rw [if_neg hcr]
            constructor
            · have h1 : statusOf
                  { s with
                      readyQ := rest,
                      log := s.log ++ [(s.clock, tid, LEvt.resumed)] } t
                  = some st := hst
              have hlt : t < s.nextId := statusOf_lt_nextId hInv hst
              exact runTask_preserves_terminal tk.code h1 hterm hne hlt
            · intro q hqm
              rw [runTask_log] at hqm
              have hqm' : q ∈ s.log ++ [(s.clock, tid, LEvt.resumed)] := hqm
              rw [List.mem_append] at hqm'
              rcases hqm' with h | h
              · exact Or.inl h
              · rw [List.mem_singleton] at h
                subst h
                exact Or.inr (Ne.symm hne)
  | nil =>
      have hnotin : ∀ p2 ∈ s.timers, p2.2 ≠ t :=
        timer_ne_of_status hInv hst hshapes.2.1
      simp only [step, hq]
      cases htm : s.timers with
      | nil => exact ⟨hst, fun q hqm => Or.inl hqm⟩
      | cons p prest =>
          obtain ⟨w0, t0⟩ := p
          dsimp only
          constructor
          · unfold statusOf
            rw [getTask_updTasks (fun j tk =>
                if ((((w0, t0) :: prest).filter fun q =>
                    decide (q.1 ≤ max s.clock w0)).map (·.2)).contains j
                then { tk with status := TStatus.ready } else tk) rfl]
            unfold statusOf at hst
            cases hg : getTask s t with
            | none => rw [hg] at hst; simp at hst
            | some tk =>
                rw [hg] at hst
                simp only [Option.map_some'] at hst ⊢
                have htk : tk.status = st := Option.some.inj hst
                have hcont : ¬ (((((w0, t0) :: prest).filter fun q =>
                    decide (q.1 ≤ max s.clock w0)).map (·.2)).contains t = true) := by
                  intro hc
                  obtain ⟨p2, hp2, hp2e⟩ :=
                    List.mem_map.mp (List.mem_of_elem_eq_true hc)
                  exact hnotin p2
                    (by rw [htm]; exact (List.mem_filter.mp hp2).1) hp2e
                rw [if_neg hcont]
                exact congrArg some htk
          · intro q hqm
            exact Or.inl hqm

/-- `n` kernel iterations keep a terminal task's status unchanged and add
no log entry about it. -/
theorem stepN_preserves_terminal {s : KState} {t : Nat} {st : TStatus}
    (hInv : Inv s) (hst : statusOf s t = some st)
    (hterm : st.isTerminal = true) (n : Nat) :
    statusOf (stepN n s) t = some st
    ∧ ∀ q ∈ (stepN n s).log, q ∈ s.log ∨ q.2.1 ≠ t := by
  induction n generalizing s with
  | zero => exact ⟨hst, fun q hqm => Or.inl hqm⟩
  | succ n ih =>
      obtain ⟨h1, h2⟩ := step_preserves_terminal hInv hst hterm
      obtain ⟨h3, h4⟩ := ih (step_inv hInv) h1
      refine ⟨h3, ?_⟩
      intro q hqm
      rcases h4 q hqm with h | h
      · exact h2 q h
      · exact Or.inr h

/-- C5: terminal states are absorbing.  A task whose status is terminal
(`Done`, `Cancelled` or `Failed`) keeps that exact status through every
number of kernel iterations, and the kernel never logs another event for
it — it is neither resumed nor delivered anything again.  In the
tutorial's cancel demo, the three blinkers (periods 3/7/5 ticks) each
record exactly one cancellation-cleanup event — their entire per-task
logs are listed, each ending in its single `cancelDelivered` with nothing
after it — all three end `Cancelled`, and the kernel is quiescent: every
further iteration leaves the state untouched, so none of them ever
resumes afterward. -/
theorem terminal_absorbing {s : KState} {t : Nat} {st : TStatus}
    (hInv : Inv s) (hst : statusOf s t = some st)
    (hterm : st.isTerminal = true) :
    (∀ n, statusOf (stepN n s) t = some st
      ∧ ∀ q ∈ (stepN n s).log, q ∈ s.log ∨ q.2.1 ≠ t)
    ∧ (∀ n, stepN n scenFin = scenFin)
    ∧ scenFin.log.filter (fun q => q.2.1 == 1)
        = [(0, 1, LEvt.resumed), (3, 1, LEvt.resumed),
           (5, 1, LEvt.cancelDelivered)]
    ∧ scenFin.log.filter (fun q => q.2.1 == 2)
        = [(0, 2, LEvt.resumed), (5, 2, LEvt.cancelDelivered)]
    ∧ scenFin.log.filter (fun q => q.2.1 == 3)
        = [(0, 3, LEvt.resumed), (5, 3, LEvt.resumed),
           (5, 3, LEvt.cancelDelivered)]
    ∧ statusOf scenFin 1 = some TStatus.cancelled
    ∧ statusOf scenFin 2 = some TStatus.cancelled
    ∧ statusOf scenFin 3 = some TStatus.cancelled := by
  have hfix : step scenFin = scenFin := by decide
  refine ⟨fun n => stepN_preserves_terminal hInv hst hterm n, ?_,
    by decide, by decide, by decide, by decide, by decide, by decide⟩
  intro n
  induction n with
  | zero => rfl
  | succ n ih =>
      show stepN n (step scenFin) = scenFin
      rw [hfix]
      exact ih

/-- Witness for C5: the `Done` task of `doneDemoState` stays `Done` with
no further log events, through any number of iterations. -/
theorem terminal_absorbing_witness :
    ((∀ n, statusOf (stepN n doneDemoState) 0 = some TStatus.done
      ∧ ∀ q ∈ (stepN n doneDemoState).log, q ∈ doneDemoState.log ∨ q.2.1 ≠ 0)
    ∧ (∀ n, stepN n scenFin = scenFin)
    ∧ scenFin.log.filter (fun q => q.2.1 == 1)
        = [(0, 1, LEvt.resumed), (3, 1, LEvt.resumed),
           (5, 1, LEvt.cancelDelivered)]
    ∧ scenFin.log.filter (fun q => q.2.1 == 2)
        = [(0, 2, LEvt.resumed), (5, 2, LEvt.cancelDelivered)]
    ∧ scenFin.log.filter (fun q => q.2.1 == 3)
        = [(0, 3, LEvt.resumed), (5, 3, LEvt.resumed),
           (5, 3, LEvt.cancelDelivered)]
    ∧ statusOf scenFin 1 = some TStatus.cancelled
    ∧ statusOf scenFin 2 = some TStatus.cancelled
    ∧ statusOf scenFin 3 = some TStatus.cancelled) := by
  exact terminal_absorbing
    ⟨by decide, by decide, by decide, by decide, by decide, by decide, by decide⟩
    (by decide) (by decide)

theorem requeue_ready_append (s : KState) (tid : Nat) (k : Code) :
    ∃ add, (requeue s tid k).readyQ = s.readyQ ++ add := by
  unfold requeue
  cases hg : getTask s tid with
  | none => exact ⟨[], (List.append_nil _).symm⟩
  | some tk => exact ⟨[tid], rfl⟩

theorem requeue_ready_append_of (s₀ : KState) {s₁ : KState} (tid : Nat) (k : Code)
    (add₁ : List Nat) (h : s₁.readyQ = s₀.readyQ ++ add₁) :
    ∃ add, (requeue s₁ tid k).readyQ = s₀.readyQ ++ add := by
  obtain ⟨add₂, h₂⟩ := requeue_ready_append s₁ tid k
  exact ⟨add₁ ++ add₂, by rw [h₂, h, List.append_assoc]⟩

/-- A resumption only ever appends to the FIFO ready queue: the queue
before the resumption is a prefix of the queue after it. -/
theorem runTask_ready_append (c : Code) : ∀ (s : KState) (tid : Nat),
    ∃ add, (runTask s tid c).readyQ = s.readyQ ++ add := by
  induction c with
  | ret =>
      intro s tid
      simp only [runTask]
      cases hg : getTask s tid with
      | none => exact ⟨[], (List.append_nil _).symm⟩
      | some tk => exact ⟨_, rfl⟩
  | raiseF =>
      intro s tid
      simp only [runTask]
      cases hg : getTask s tid with
      | none => exact ⟨[], (List.append_nil _).symm⟩
      | some tk => exact ⟨_, rfl⟩
  | sleep d k ihk =>
      intro s tid
      simp only [runTask]
      cases hg : getTask s tid with
      | none => exact ⟨[], (List.append_nil _).symm⟩
      | some tk => exact ⟨[], (List.append_nil _).symm⟩
  | wait e k ihk =>
      intro s tid
      simp only [runTask]
      cases hg : getTask s tid with
      | none => exact ⟨[], (List.append_nil _).symm⟩
      | some tk => exact ⟨[], (List.append_nil _).symm⟩
  | spawn c k ihc ihk =>
      intro s tid
      simp only [runTask]
      exact requeue_ready_append_of s tid k [s.nextId] rfl
  | join tgt k ihk =>
      intro s tid
      simp only [runTask]
      cases hg : getTask s tgt with
      | none =>
          dsimp only
          cases hg2 : getTask s tid with
          | none => exact ⟨[], (List.append_nil _).symm⟩
          | some tk => exact ⟨_, rfl⟩
      | some target =>
          dsimp only
          by_cases hd : (target.status == TStatus.done) = true
          · rw [if_pos hd]
            exact requeue_ready_append_of s tid k [] (List.append_nil _).symm
          · rw [if_neg hd]
            by_cases hcf : (target.status == TStatus.cancelled
                || target.status == TStatus.failed) = true
            · rw [if_pos hcf]
              exact requeue_ready_append_of s tid Code.raiseF []
                (List.append_nil _).symm
            · rw [if_neg hcf]
              cases hg2 : getTask s tid with
              | none => exact ⟨[], (List.append_nil _).symm⟩
              | some tk => exact ⟨[], (List.append_nil _).symm⟩
  | cancel tgt k ihk =>
      intro s tid
      simp only [runTask]
      cases hg : getTask s tgt with
      | none =>
          dsimp only
          exact requeue_ready_append_of s tid k [] (List.append_nil _).symm
      | some target =>
          dsimp only
          by_cases hT : target.status.isTerminal = true
          · rw [if_pos hT]
            exact requeue_ready_append_of s tid k [] (List.append_nil _).symm
          · rw [if_neg hT]
            cases hsc : target.status with
            | ready =>
                dsimp only
                exact requeue_ready_append_of s tid k [] (List.append_nil _).symm
            | done =>
                dsimp only
                exact requeue_ready_append_of s tid k [] (List.append_nil _).symm
            | cancelled =>
                dsimp only
                exact requeue_ready_append_of s tid k [] (List.append_nil _).symm
            | failed =>
                dsimp only
                exact requeue_ready_append_of s tid k [] (List.append_nil _).symm
            | sleepingUntil w =>
                dsimp only
                exact requeue_ready_append_of s tid k [tgt] rfl
            | waitingOn e =>
                dsimp only
                exact requeue_ready_append_of s tid k [tgt] rfl
            | joining j =>
                dsimp only
                exact requeue_ready_append_of s tid k [tgt] rfl
  | signal e k ihk =>
      intro s tid
      simp only [runTask]
      exact requeue_ready_append_of s tid k
        (selectIds (fun t => t.status == TStatus.waitingOn e) s.tasks) rfl
  | pyCall g k ihg ihk =>
      intro s tid
      simp only [runTask]
      exact ihk s tid

/-- Counterexample to C6's tie-break clause.  Task 1 is spawned before
task 2 (their handles are assigned in passes 1 and 3).  Both wake at tick
10 and become `Ready` simultaneously, in the same scheduling pass (the
single timer drain taking the ready queue from `[]` to `[2, 1]`).  Spawn
order would resume 1 before 2; the kernel resumes 2 before 1, because
the Timer Queue holds `[(10, 2), (10, 1)]` — the tie is broken by
TimerEntry insertion order (task 2's wake-10 entry was inserted at tick
1, task 1's at tick 2), as §3 of the spec states, not by spawn order. -/
theorem spawn_order_tie_break_cex :
    (stepN 1 cexInit).nextId = 2
    ∧ (stepN 3 cexInit).nextId = 3
    ∧ (stepN 9 cexInit).readyQ = []
    ∧ (stepN 9 cexInit).timers = [(10, 2), (10, 1)]
    ∧ (stepN 10 cexInit).readyQ = [2, 1]
    ∧ ((stepN 12 cexInit).log.filter
        (fun q => q.1 == 10 && q.2.2 == LEvt.resumed)).map (fun q => q.2.1)
      = [2, 1] := by
  refine ⟨by decide, by decide, by decide, by decide, by decide, by decide⟩

/-- C6 (amended): the ready queue is strictly FIFO — the kernel resumes
the popped head, and a resumption only appends newly-`Ready` tasks at the
tail; tasks woken by the same timer drain are enqueued in Timer Queue
order; and the Timer Queue breaks equal-wake-time ties by insertion
order (`insertTimer` places a new entry after every entry with an equal
or smaller wake time), not by spawn order. -/
theorem ready_fifo_insertion_tie {s : KState} {tid : Nat} {rest : List Nat}
    {tk : Task} (hq : s.readyQ = tid :: rest) (htk : getTask s tid = some tk)
    (hflag : tk.cancelRequested = false) :
    ((step s).log = s.log ++ [(s.clock, tid, LEvt.resumed)]
      ∧ ∃ add, (step s).readyQ = rest ++ add)
    ∧ (∀ s₂ w0 t0 prest, s₂.readyQ = [] → s₂.timers = (w0, t0) :: prest →
        (step s₂).readyQ
          = (s₂.timers.filter fun p => decide (p.1 ≤ max s₂.clock w0)).map (·.2))
    ∧ (∀ w t l, ∃ l₁ l₂, l = l₁ ++ l₂ ∧ insertTimer w t l = l₁ ++ (w, t) :: l₂
        ∧ (∀ p ∈ l₁, p.1 ≤ w)
        ∧ (l₂ = [] ∨ ∃ q l₂', l₂ = q :: l₂' ∧ w < q.1)) := by
  refine ⟨⟨?_, ?_⟩, ?_, fun w t l => insertTimer_split w t l⟩
  · simp only [step, hq]
    rw [show getTask { s with readyQ := rest } tid = some tk from htk]
    dsimp only
    rw [if_neg (by rw [hflag]; exact Bool.false_ne_true)]
    rw [runTask_log]
  · simp only [step, hq]
    rw [show getTask { s with readyQ := rest } tid = some tk from htk]
    dsimp only
    rw [if_neg (by rw [hflag]; exact Bool.false_ne_true)]
    obtain ⟨add, hadd⟩ := runTask_ready_append tk.code
      { s with
          readyQ := rest,
          log := s.log ++ [(s.clock, tid, LEvt.resumed)] } tid
    exact ⟨add, hadd⟩
  · intro s₂ w0 t0 prest hq₂ htm₂
    simp only [step, hq₂]
    rw [htm₂]
    dsimp only
    exact List.nil_append _

/-- Witness for the amended C6 at `fifoDemoState`. -/
theorem ready_fifo_insertion_tie_witness :
    (((step fifoDemoState).log
        = fifoDemoState.log ++ [(fifoDemoState.clock, 0, LEvt.resumed)]
      ∧ ∃ add, (step fifoDemoState).readyQ = [] ++ add)
    ∧ (∀ s₂ w0 t0 prest, s₂.readyQ = [] → s₂.timers = (w0, t0) :: prest →
        (step s₂).readyQ
          = (s₂.timers.filter fun p => decide (p.1 ≤ max s₂.clock w0)).map (·.2))
    ∧ (∀ w t l, ∃ l₁ l₂, l = l₁ ++ l₂ ∧ insertTimer w t l = l₁ ++ (w, t) :: l₂
        ∧ (∀ p ∈ l₁, p.1 ≤ w)
        ∧ (l₂ = [] ∨ ∃ q l₂', l₂ = q :: l₂' ∧ w < q.1))) := by
  exact @ready_fifo_insertion_tie fifoDemoState 0 []
    ⟨Code.ret, TStatus.ready, false⟩ rfl rfl rfl

/-- C7: when the ready queue is empty and timers are pending, the Idle
Policy with a low-power park path never spins: it parks, and the wake
instant is the Timer Queue's minimum entry — `w0`, the head of the
wake-time-ordered queue, a lower bound of every pending wake time.  An
external signal arriving at `sig` cuts the park short to `min w0 sig`;
with no signal the CPU wakes exactly at `w0`, and the kernel clock
accordingly advances to `max clock w0`. -/
theorem idle_parks_at_min_wake {s : KState} {w0 t0 : Nat}
    {trest : List (Nat × Nat)} (hInv : Inv s) (hq : s.readyQ = [])
    (htm : s.timers = (w0, t0) :: trest) :
    idlePolicy true s.timers ≠ IdleAction.spin
    ∧ idlePolicy true s.timers = IdleAction.park (some w0)
    ∧ (∀ p ∈ s.timers, w0 ≤ p.1)
    ∧ (∀ sig, wakeInstant (some w0) (some sig) = some (min w0 sig)
        ∧ wakeInstant (some w0) none = some w0)
    ∧ (step s).clock = max s.clock w0 := by
  refine ⟨?_, ?_, ?_, fun sig => ⟨rfl, rfl⟩, ?_⟩
  · intro h
    rw [idlePolicy, if_pos rfl] at h
    exact IdleAction.noConfusion h
  · rw [idlePolicy, if_pos rfl, htm]
    rfl
  · intro p hp
    rw [htm] at hp
    rcases List.mem_cons.mp hp with rfl | hp
    · exact Nat.le_refl _
    · have hs := hInv.timerSorted
      rw [htm, List.pairwise_cons] at hs
      exact hs.1 p hp
  · simp only [step, hq]
    rw [htm]

/-- Witness for C7 at `idleDemoState`. -/
theorem idle_parks_at_min_wake_witness :
    (idlePolicy true idleDemoState.timers ≠ IdleAction.spin
    ∧ idlePolicy true idleDemoState.timers = IdleAction.park (some 9)
    ∧ (∀ p ∈ idleDemoState.timers, 9 ≤ p.1)
    ∧ (∀ sig, wakeInstant (some 9) (some sig) = some (min 9 sig)
        ∧ wakeInstant (some 9) none = some 9)
    ∧ (step idleDemoState).clock = max idleDemoState.clock 9) := by
  exact @idle_parks_at_min_wake idleDemoState 9 1 []
    ⟨by decide, by decide, by decide, by decide, by decide, by decide, by decide⟩
    rfl rfl

/-- C10: calling `eventio.sleep(d)` without `await` has no scheduling
effect whatsoever, for any `d`: the resumption discards the generator
and proceeds directly with the rest of the task (`runTask` on
`pyCall g k` is `runTask` on `k`, whatever the discarded coroutine `g`),
and the tutorial's no-await task runs to `Done` in its very first
resumption — no TimerEntry is created, the clock does not advance, and
the task never suspends. -/
theorem sleep_without_await_noop :
    (∀ s tid g k, runTask s tid (Code.pyCall g k) = runTask s tid k)
    ∧ (∀ d, statusOf (step (noAwaitState d)) 0 = some TStatus.done
        ∧ (step (noAwaitState d)).timers = []
        ∧ (step (noAwaitState d)).clock = 0
        ∧ (step (noAwaitState d)).readyQ = []) := by
  exact ⟨fun s tid g k => rfl, fun d => ⟨rfl, rfl, rfl, rfl⟩⟩

end Eventio
